import Mathlib

/-!
Verification of the ADIF log parser and query engine of `humaid-qsl`
(`src/utils/adif.go`) and its reload coordinator (`src/cmd/web.go`).

The Go code is shallowly embedded: Go strings become `List Char` (the spec
assumes a UTF-8-compatible ASCII-superset encoding, §6, so the ASCII case
maps model `strings.ToUpper` / `strings.ToLower`), `time.Time` values become
`Int` seconds relative to the zero `time.Time` (0001-01-01T00:00:00 UTC), so
`Time.IsZero` becomes `= 0` and `Time.Before` becomes `<`.  Fallible Go
functions return `Except`/`Option`.
-/

namespace QSL

/-- ASCII lower-casing of one character, modelling Go `strings.ToLower`
(field names and the `(?i)` markers in the source are ASCII). -/
def asciiLower (c : Char) : Char :=
  if 'A' ≤ c ∧ c ≤ 'Z' then Char.ofNat (c.toNat + 32) else c

/-- ASCII upper-casing of one character, modelling Go `strings.ToUpper`
(used on call signs). -/
def asciiUpper (c : Char) : Char :=
  if 'a' ≤ c ∧ c ≤ 'z' then Char.ofNat (c.toNat - 32) else c

/-- Go `unicode.IsSpace` (the White_Space property), as used by
`strings.TrimSpace`. -/
def goIsSpace (c : Char) : Bool :=
  let n := c.toNat
  (n == 9) || (n == 10) || (n == 11) || (n == 12) || (n == 13) || (n == 32) ||
  (n == 0x85) || (n == 0xA0) || (n == 0x1680) ||
  ((0x2000 ≤ n) && (n ≤ 0x200A)) || (n == 0x2028) || (n == 0x2029) ||
  (n == 0x202F) || (n == 0x205F) || (n == 0x3000)

/-- Go `strings.TrimSpace`: strip leading and trailing white space. -/
def trimSpace (l : List Char) : List Char :=
  ((l.dropWhile goIsSpace).reverse.dropWhile goIsSpace).reverse

/-- ASCII decimal digit test (Go regexp `\d` over ASCII input). -/
def isDigitCh (c : Char) : Bool := ('0' ≤ c) && (c ≤ '9')

/-- Numeric value of a digit string (most significant first). -/
def digitsVal (l : List Char) : Nat :=
  l.foldl (fun a c => a * 10 + (c.toNat - 48)) 0

/-- Go `strconv.Atoi` on a 64-bit platform: optional sign, then a non-empty
run of decimal digits; errors (`none`) on empty input, stray characters, or
64-bit overflow. -/
def goAtoi (l : List Char) : Option Int :=
  match l with
  | [] => none
  | c :: rest =>
    if c = '+' then
      if rest ≠ [] ∧ rest.all isDigitCh ∧ digitsVal rest ≤ 9223372036854775807
      then some (Int.ofNat (digitsVal rest)) else none
    else if c = '-' then
      if rest ≠ [] ∧ rest.all isDigitCh ∧ digitsVal rest ≤ 9223372036854775808
      then some (-(Int.ofNat (digitsVal rest))) else none
    else
      if (c :: rest).all isDigitCh ∧ digitsVal (c :: rest) ≤ 9223372036854775807
      then some (Int.ofNat (digitsVal (c :: rest))) else none

/-- Proleptic-Gregorian leap-year test (Go `time.isLeap`). -/
def isLeap (y : Int) : Bool :=
  (y % 4 == 0) && ((y % 100 != 0) || (y % 400 == 0))

/-- Days before the start of month `m` (1..12) in a non-leap year
(Go `time.daysBefore`). -/
def daysBeforeMonth (m : Nat) : Int :=
  ([0, 31, 59, 90, 120, 151, 181, 212, 243, 273, 304, 334].getD (m - 1) 0 : Nat)

/-- Days from 0001-01-01 to the start of year `y` in the proleptic Gregorian
calendar (the mathematical content of Go `time.daysSinceEpoch`, shifted to
the zero `time.Time` as day 0); floor division handles years before 1. -/
def daysFromYear1 (y : Int) : Int :=
  365 * (y - 1) + (y - 1).fdiv 4 - (y - 1).fdiv 100 + (y - 1).fdiv 400

/-- Go `time.norm hi lo base`: borrow/carry `lo` into `hi` until
`0 ≤ lo < base` (Go integer division truncates; the operands here are
non-negative, so `/` matches). -/
def goNorm (hi lo base : Int) : Int × Int :=
  let p := if lo < 0 then (hi - ((-lo - 1) / base + 1), lo + ((-lo - 1) / base + 1) * base)
           else (hi, lo)
  if base ≤ p.2 then (p.1 + p.2 / base, p.2 - (p.2 / base) * base) else p

/-- Go `time.Date(year, month, day, hour, minute, sec, 0, time.UTC)` as
seconds since the zero `time.Time` (0001-01-01T00:00:00 UTC).  Out-of-range
components are normalised, exactly as in Go: seconds overflow into minutes,
minutes into hours, hours into days, and months into years; days are simply
added to the start of the (normalised) month. -/
def goDate (year month day hour minute sec : Int) : Int :=
  let p1 := goNorm minute sec 60
  let minute := p1.1
  let sec := p1.2
  let p2 := goNorm hour minute 60
  let hour := p2.1
  let minute := p2.2
  let p3 := goNorm day hour 24
  let day := p3.1
  let hour := p3.2
  let p4 := goNorm year (month - 1) 12
  let year := p4.1
  let month := p4.2 + 1
  let d := daysFromYear1 year + daysBeforeMonth month.toNat +
    (if isLeap year ∧ 3 ≤ month then 1 else 0) + (day - 1)
  d * 86400 + hour * 3600 + minute * 60 + sec

/-- The UTC instant of a calendar date given with in-range components
(month 1..12), as seconds since the zero `time.Time`.  Used to state the
spec's phrases such as "a timestamp equal to 2024-01-15T14:30:00 UTC". -/
def utcInstant (year month day hour minute sec : Int) : Int :=
  (daysFromYear1 year + daysBeforeMonth month.toNat +
    (if isLeap year ∧ 3 ≤ month then 1 else 0) + (day - 1)) * 86400 +
  hour * 3600 + minute * 60 + sec

/-- The `QSO` struct of `src/utils/adif.go` (lines 26-55).  Every Go string
field becomes `List Char` (the `QslStatus` fields are strings in Go); the
derived `Timestamp` is an instant in seconds since the zero `time.Time`,
`0` being the zero value. -/
structure QSO where
  call : List Char := []
  qsoDate : List Char := []
  timeOn : List Char := []
  qsoDateOff : List Char := []
  timeOff : List Char := []
  band : List Char := []
  mode : List Char := []
  freq : List Char := []
  rstSent : List Char := []
  rstRcvd : List Char := []
  qth : List Char := []
  name : List Char := []
  comment : List Char := []
  gridSquare : List Char := []
  country : List Char := []
  dxcc : List Char := []
  myGridSquare : List Char := []
  stationCall : List Char := []
  myRig : List Char := []
  myAntenna : List Char := []
  txPwr : List Char := []
  qslSent : List Char := []
  qslRcvd : List Char := []
  lotwSent : List Char := []
  lotwRcvd : List Char := []
  eqslSent : List Char := []
  eqslRcvd : List Char := []
  timestamp : Int := 0
deriving DecidableEq, Repr

instance : Inhabited QSO := ⟨{}⟩

/-- One attempted match of the field regexp `<([^:>]+):(\d+)>([^<]*)` at a
position just after a `<`: the greedy run of non-`:`/`>` characters must be
non-empty and followed by `:`, the greedy digit run non-empty and followed
by `>`, and the value is the run up to the next `<` (backtracking cannot
shorten the forced greedy runs).  Returns the three capture groups and the
number of characters consumed after the `<`. -/
def tryField (rest : List Char) :
    Option (List Char × List Char × List Char × Nat) :=
  let nm := rest.takeWhile (fun c => (c != ':') && (c != '>'))
  match rest.drop nm.length with
  | ':' :: r2 =>
    if nm = [] then none
    else
      let digits := r2.takeWhile isDigitCh
      match r2.drop digits.length with
      | '>' :: r4 =>
        if digits = [] then none
        else
          let value := r4.takeWhile (fun c => c != '<')
          some (nm, digits, value, nm.length + 1 + digits.length + 1 + value.length)
      | _ => none
  | _ => none

/-- Fuel-driven scan behind `findFields`.  Every step consumes at least one
character, so fuel equal to the input length never runs out; the fuel makes
the recursion structural (and hence kernel-reducible). -/
def findFieldsF : Nat → List Char → List (List Char × List Char × List Char)
  | 0, _ => []
  | _ + 1, [] => []
  | fuel + 1, c :: rest =>
    if c = '<' then
      match tryField rest with
      | some (nm, digits, value, k) =>
        (nm, digits, value) :: findFieldsF fuel (rest.drop k)
      | none => findFieldsF fuel rest
    else findFieldsF fuel rest

/-- Go `fieldRegex.FindAllStringSubmatch(record, -1)`: successive
leftmost non-overlapping matches of `<([^:>]+):(\d+)>([^<]*)`.  A match can
only begin at a `<`; on failure the scan advances one character. -/
def findFields (l : List Char) : List (List Char × List Char × List Char) :=
  findFieldsF l.length l

/-- The `switch fieldName` of `ADIFParser.parseRecord` (lines 133-188):
map a recognised (lower-cased) field name onto the record, upper-casing
`call` and ignoring unrecognised names. -/
def applyField (q : QSO) (fieldName fieldValue : List Char) : QSO :=
  if fieldName = "call".toList then { q with call := fieldValue.map asciiUpper }
  else if fieldName = "qso_date".toList then { q with qsoDate := fieldValue }
  else if fieldName = "time_on".toList then { q with timeOn := fieldValue }
  else if fieldName = "qso_date_off".toList then { q with qsoDateOff := fieldValue }
  else if fieldName = "time_off".toList then { q with timeOff := fieldValue }
  else if fieldName = "band".toList then { q with band := fieldValue }
  else if fieldName = "mode".toList then { q with mode := fieldValue }
  else if fieldName = "freq".toList then { q with freq := fieldValue }
  else if fieldName = "rst_sent".toList then { q with rstSent := fieldValue }
  else if fieldName = "rst_rcvd".toList then { q with rstRcvd := fieldValue }
  else if fieldName = "qth".toList then { q with qth := fieldValue }
  else if fieldName = "name".toList then { q with name := fieldValue }
  else if fieldName = "comment".toList then { q with comment := fieldValue }
  else if fieldName = "gridsquare".toList then { q with gridSquare := fieldValue }
  else if fieldName = "country".toList then { q with country := fieldValue }
  else if fieldName = "dxcc".toList then { q with dxcc := fieldValue }
  else if fieldName = "my_gridsquare".toList then { q with myGridSquare := fieldValue }
  else if fieldName = "station_callsign".toList then { q with stationCall := fieldValue }
  else if fieldName = "my_rig".toList then { q with myRig := fieldValue }
  else if fieldName = "my_antenna".toList then { q with myAntenna := fieldValue }
  else if fieldName = "tx_pwr".toList then { q with txPwr := fieldValue }
  else if fieldName = "qsl_sent".toList then { q with qslSent := fieldValue }
  else if fieldName = "qsl_rcvd".toList then { q with qslRcvd := fieldValue }
  else if fieldName = "lotw_qsl_sent".toList then { q with lotwSent := fieldValue }
  else if fieldName = "lotw_qsl_rcvd".toList then { q with lotwRcvd := fieldValue }
  else if fieldName = "eqsl_qsl_sent".toList then { q with eqslSent := fieldValue }
  else if fieldName = "eqsl_qsl_rcvd".toList then { q with eqslRcvd := fieldValue }
  else q

/-- Per-match body of the loop in `parseRecord` (lines 111-189): normalise
the field name, `Atoi` the declared length (skipping the field on error,
which for the digit-only capture means 64-bit overflow), skip the field if
the available data is shorter than declared, otherwise apply the trimmed
`data[:length]`. -/
def applyMatch (q : QSO) (m : List Char × List Char × List Char) : QSO :=
  let fieldName := (trimSpace m.1).map asciiLower
  match goAtoi m.2.1 with
  | none => q
  | some length =>
    if (m.2.2.length : Int) < length then q
    else applyField q fieldName (trimSpace (m.2.2.take length.toNat))

/-- `ADIFParser.parseTimestamp` (lines 207-242): require an 8-character date
and 6-character time, `Atoi` the six components, and build the instant with
`time.Date(...)` in UTC.  No range validation is performed on the
components. -/
def parseTimestamp (date timeOn : List Char) : Option Int :=
  if date.length ≠ 8 ∨ timeOn.length ≠ 6 then none
  else
    match goAtoi (date.take 4), goAtoi ((date.drop 4).take 2),
        goAtoi (date.drop 6), goAtoi (timeOn.take 2),
        goAtoi ((timeOn.drop 2).take 2), goAtoi (timeOn.drop 4) with
    | some year, some month, some day, some hour, some minute, some sec =>
      some (goDate year month day hour minute sec)
    | _, _, _, _, _, _ => none

/-- The field-mapping phase of `parseRecord` (lines 105-189): fold the
regexp matches over the zero `QSO`. -/
def mappedQSO (record : List Char) : QSO :=
  (findFields record).foldl applyMatch {}

/-- The timestamp-derivation phase of `parseRecord` (lines 191-197): when
both `QSODate` and `TimeOn` are non-empty and `parseTimestamp` succeeds,
store the derived instant; otherwise leave the record unchanged. -/
def deriveTimestamp (q : QSO) : QSO :=
  if q.qsoDate ≠ [] ∧ q.timeOn ≠ [] then
    match parseTimestamp q.qsoDate q.timeOn with
    | some ts => { q with timestamp := ts }
    | none => q
  else q

/-- The record built by `parseRecord` before its final validation. -/
def recordQSO (record : List Char) : QSO :=
  deriveTimestamp (mappedQSO record)

/-- The validation phase of `parseRecord` (lines 199-204): reject the
record when `call` or `qsoDate` ended up empty. -/
def validateQSO (q : QSO) : Except (List Char) QSO :=
  if q.call = [] ∨ q.qsoDate = [] then
    .error "missing required fields (CALL or QSO_DATE)".toList
  else .ok q

/-- `ADIFParser.parseRecord` (lines 104-205). -/
def parseRecord (record : List Char) : Except (List Char) QSO :=
  validateQSO (recordQSO record)

/-- Case-insensitive (ASCII) prefix test: does `l` start with the
lower-case pattern `p`? -/
def matchesCI : List Char → List Char → Bool
  | [], _ => true
  | _ :: _, [] => false
  | p :: ps, c :: cs => (asciiLower c == p) && matchesCI ps cs

/-- Index of the first case-insensitive occurrence of the lower-case
pattern `p` in `l`.  Models both `strings.Index(strings.ToUpper(content),
"<EOH>")` and the leftmost match of `regexp (?i)<eor>`. -/
def findCI (p : List Char) : List Char → Option Nat
  | [] => if p = [] then some 0 else none
  | c :: rest =>
    if matchesCI p (c :: rest) then some 0
    else (findCI p rest).map (· + 1)

theorem matchesCI_length {p l : List Char} (h : matchesCI p l = true) :
    p.length ≤ l.length := by
  induction p generalizing l with
  | nil => simp
  | cons a as ih =>
    cases l with
    | nil => simp [matchesCI] at h
    | cons c cs =>
      simp only [matchesCI, Bool.and_eq_true] at h
      simpa using Nat.succ_le_succ (ih h.2)

theorem findCI_bound {p l : List Char} {i : Nat} (h : findCI p l = some i) :
    i + p.length ≤ l.length := by
  induction l generalizing i with
  | nil =>
    by_cases hp : p = ([] : List Char) <;> simp [findCI, hp] at h
    simp [hp, ← h]
  | cons c cs ih =>
    by_cases hm : matchesCI p (c :: cs)
    · simp [findCI, hm] at h
      subst h
      simpa using matchesCI_length hm
    · simp [findCI, hm] at h
      obtain ⟨j, hj, rfl⟩ := h
      have := ih hj
      simp only [List.length_cons]
      omega

/-- Header stripping in `parseContent` (lines 77-81): everything up to and
including the first case-insensitive `<EOH>` is discarded. -/
def stripHeader (content : List Char) : List Char :=
  match findCI "<eoh>".toList content with
  | none => content
  | some i => content.drop (i + 5)

/-- Fuel-driven splitter behind `splitEOR`.  Every recursive step consumes
at least the five characters of the matched `<eor>`, so fuel equal to the
input length never runs out; the fuel makes the recursion structural. -/
def splitEORF : Nat → List Char → List (List Char)
  | 0, content => [content]
  | fuel + 1, content =>
    match findCI "<eor>".toList content with
    | none => [content]
    | some i => content.take i :: splitEORF fuel (content.drop (i + 5))

/-- `regexp.MustCompile((?i)<eor>).Split(content, -1)` (line 84): split the
content around every case-insensitive `<eor>`. -/
def splitEOR (content : List Char) : List (List Char) :=
  splitEORF content.length content

/-- The record loop of `ADIFParser.parseContent` (lines 86-99): trim each
chunk, skip empty chunks, parse, silently drop records that fail to parse,
and append the rest to the accumulated `p.QSOs`. -/
def parseChunks (st : List QSO) : List (List Char) → List QSO
  | [] => st
  | chunk :: rest =>
    let record := trimSpace chunk
    if record = [] then parseChunks st rest
    else
      match parseRecord record with
      | .error _ => parseChunks st rest
      | .ok q => parseChunks (st ++ [q]) rest

/-- `ADIFParser.parseContent` (lines 76-102) on a parser currently holding
`st`: strip the header, split on `<eor>`, and run the record loop.  The Go
function always returns a nil error; the resulting `p.QSOs` is returned. -/
def parseContent (st : List QSO) (content : List Char) : List QSO :=
  parseChunks st (splitEOR (stripHeader content))

/-- `ADIFParser.ParseFile` (lines 67-74): `none` models an `io.ReadAll`
failure, which is the only error path; otherwise the content is parsed and
the call succeeds with the accumulated collection. -/
def parseFile (st : List QSO) (readResult : Option (List Char)) :
    Except (List Char) (List QSO) :=
  match readResult with
  | none => .error "failed to read ADIF file".toList
  | some content => .ok (parseContent st content)

/-- Two's-complement wraparound of a 64-bit signed integer (Go `int64` and
`time.Duration` arithmetic): the representative of `x` in
`[-2^63, 2^63)`. -/
def wrap64 (x : Int) : Int := (x + 2 ^ 63) % 2 ^ 64 - 2 ^ 63

/-- Go `time.minDuration`: the smallest `time.Duration` value. -/
def minDuration : Int := -(2 ^ 63)

/-- Go `time.maxDuration`: the largest `time.Duration` value. -/
def maxDuration : Int := 2 ^ 63 - 1

/-- Go `Time.Sub` on instants given in whole seconds (the parsed timestamps
and `time.Unix(sec, 0)` search times carry zero nanoseconds, and their
second counters stay far from the int64 second range): the exact difference
in nanoseconds when it fits a `time.Duration`, otherwise saturated at
`minDuration`/`maxDuration` according to the sign (the `u.Add(d).Equal(t)`
overflow check of the Go source). -/
def goSub (x u : Int) : Int :=
  let d := (x - u) * 1000000000
  if minDuration ≤ d ∧ d ≤ maxDuration then d
  else if x < u then minDuration
  else maxDuration

/-- The `timeDiff` computed by `SearchQSO` (lines 261-264): `Sub`, then
`timeDiff = -timeDiff` when negative — an int64 negation that wraps, so a
saturated `minDuration` stays `minDuration` (negative). -/
def goAbsDiff (x t : Int) : Int :=
  let d := goSub x t
  if d < 0 then wrap64 (-d) else d

/-- The loop of `ADIFParser.SearchQSO` (lines 253-275) with its mutable
`bestMatch`/`bestTimeDiff`/`found` state as an accumulator: skip records of
another call sign or with a zero timestamp; for the rest compute the
`Duration` time difference with Go's saturating `Sub` and wrapping
negation, and within tolerance keep the first record and afterwards only
strictly closer ones.  `tol` is the tolerance as a `time.Duration` in
nanoseconds. -/
def searchLoop (callSign : List Char) (t tol : Int) :
    List QSO → Option (QSO × Int) → Option (QSO × Int)
  | [], acc => acc
  | qso :: rest, acc =>
    if qso.call ≠ callSign then searchLoop callSign t tol rest acc
    else if qso.timestamp = 0 then searchLoop callSign t tol rest acc
    else
      let d := goSub qso.timestamp t
      let timeDiff := if d < 0 then wrap64 (-d) else d
      if timeDiff ≤ tol then
        match acc with
        | none => searchLoop callSign t tol rest (some (qso, timeDiff))
        | some (b, best) =>
          if timeDiff < best then searchLoop callSign t tol rest (some (qso, timeDiff))
          else searchLoop callSign t tol rest (some (b, best))
      else searchLoop callSign t tol rest acc

/-- `ADIFParser.SearchQSO` (lines 245-281): normalise the call sign, run
the scan with `tolerance := time.Duration(toleranceMinutes) * time.Minute`
— the inner `wrap64` is the 64-bit `int → Duration` conversion (identity on
the int64 range), the outer one the wrapping int64 multiplication by
`time.Minute` (6e10 ns) — and return the best match as a zero- or
one-element list. -/
def searchQSO (qsos : List QSO) (callSign : List Char)
    (searchTime toleranceMinutes : Int) : List QSO :=
  let callSign := (trimSpace callSign).map asciiUpper
  let tolerance := wrap64 (wrap64 toleranceMinutes * 60000000000)
  match searchLoop callSign searchTime tolerance qsos none with
  | none => []
  | some (q, _) => [q]

/-- One full bubble pass: compare each adjacent pair, swapping when
`f` says so (`f a b = true` means `a` must move right). -/
def bpass (f : QSO → QSO → Bool) : List QSO → List QSO
  | [] => []
  | [a] => [a]
  | a :: b :: r =>
    if f a b then b :: bpass f (a :: r) else a :: bpass f (b :: r)
termination_by l => l.length
decreasing_by all_goals simp

/-- A bubble pass limited to `m` comparisons — the inner loop
`for j := 0; j < len-1-i; j++` of the Go bubble sorts, which touches only
the first `m+1` elements. -/
def bpassN (f : QSO → QSO → Bool) : Nat → List QSO → List QSO
  | 0, l => l
  | _ + 1, [] => []
  | _ + 1, [a] => [a]
  | m + 1, a :: b :: r =>
    if f a b then b :: bpassN f m (a :: r) else a :: bpassN f m (b :: r)

/-- The outer loop `for i := 0; i < len-1; i++`: pass `i` performs
`len-1-i` comparisons, so the comparison budgets run `k, k-1, ..., 1`. -/
def bubbleAux (f : QSO → QSO → Bool) : Nat → List QSO → List QSO
  | 0, l => l
  | k + 1, l => bubbleAux f k (bpassN f (k + 1) l)

/-- The bubble sort shared by `GetLatestQSOs` (lines 324-330) and
`GetPaperQSLHallOfFame` (lines 388-394): `len-1` passes of shrinking
length over a copy of the list. -/
def bubbleSortBy (f : QSO → QSO → Bool) (l : List QSO) : List QSO :=
  bubbleAux f (l.length - 1) l

/-- Comparator of `GetLatestQSOs` (line 326): swap when
`qsos[j].Timestamp.Before(qsos[j+1].Timestamp)`, i.e. newest first. -/
def tsSwap (a b : QSO) : Bool := a.timestamp < b.timestamp

/-- Go string comparison `x < y` (byte-wise lexicographic; code-point-wise
here under the ASCII-superset assumption). -/
def strLt : List Char → List Char → Bool
  | [], [] => false
  | [], _ :: _ => true
  | _ :: _, [] => false
  | a :: as, b :: bs => if a = b then strLt as bs else decide (a.toNat < b.toNat)

/-- Comparator of `GetPaperQSLHallOfFame` (line 390): swap when
`result[j].Call > result[j+1].Call`, i.e. call signs ascending. -/
def callSwap (a b : QSO) : Bool := strLt b.call a.call

/-- `ADIFParser.GetLatestQSOs` (lines 314-336).  The `limit` is a Go `int`;
slicing `qsos[:limit]` with a negative `limit` panics, modelled as `none`. -/
def getLatestQSOs (qsos : List QSO) (limit : Int) : Option (List QSO) :=
  if qsos.length = 0 then some []
  else
    let sorted := bubbleSortBy tsSwap qsos
    if (sorted.length : Int) < limit then some sorted
    else if limit < 0 then none
    else some (sorted.take limit.toNat)

/-- Read access `seen[qso.Call]` on the association list modelling the Go
map: the (unique) entry with the given key, if any. -/
def seenFind (c : List Char) : List (List Char × QSO) → Option QSO
  | [] => none
  | e :: rest => if e.1 = c then some e.2 else seenFind c rest

/-- Update of the `seen` map in `GetPaperQSLHallOfFame` (lines 370-377) for
one qualifying record, on an insertion-ordered association list: first
record of a call sign is inserted; a later record replaces it only when the
newcomer has a name and the stored record does not. -/
def hofUpdate (seen : List (List Char × QSO)) (q : QSO) :
    List (List Char × QSO) :=
  match seenFind q.call seen with
  | none => seen ++ [(q.call, q)]
  | some existing =>
    if q.name ≠ [] ∧ existing.name = [] then
      seen.map (fun e => if e.1 = q.call then (e.1, q) else e)
    else seen

/-- The accumulation loop of `GetPaperQSLHallOfFame` (lines 366-379): only
records with `QslRcvd == QslYes` take part. -/
def hofLoop : List QSO → List (List Char × QSO) → List (List Char × QSO)
  | [], seen => seen
  | q :: rest, seen =>
    if q.qslRcvd = "Y".toList then hofLoop rest (hofUpdate seen q)
    else hofLoop rest seen

/-- `ADIFParser.GetPaperQSLHallOfFame` (lines 363-397): deduplicate the
confirmed records by call sign, then bubble sort the retained values by
call sign.  Go iterates the map in unspecified order before sorting; since
the keys are pairwise distinct, the sorted result does not depend on that
order, and the model extracts the values in insertion order. -/
def hallOfFame (qsos : List QSO) : List QSO :=
  bubbleSortBy callSwap ((hofLoop qsos []).map (·.2))

/-- `QSO.FormatDate` (lines 408-413): insert dashes into an 8-character
date, else return it unchanged. -/
def formatDate (q : QSO) : List Char :=
  if q.qsoDate.length = 8 then
    q.qsoDate.take 4 ++ '-' :: ((q.qsoDate.drop 4).take 2) ++ '-' :: q.qsoDate.drop 6
  else q.qsoDate

/-- `QSO.FormatTime` (lines 416-421): `HH:MM` when the time has at least 4
characters, else unchanged. -/
def formatTime (q : QSO) : List Char :=
  if 4 ≤ q.timeOn.length then
    q.timeOn.take 2 ++ ':' :: (q.timeOn.drop 2).take 2
  else q.timeOn

/-- `ReloadableParser` of `src/cmd/web.go` (lines 298-302): the current
collection (the wrapped `ADIFParser`) plus the file path.  The mutex only
guards the swap and is irrelevant to the functional claims. -/
structure ReloadableParser where
  qsos : List QSO
  filePath : List Char

/-- Outcome of `os.Open` plus reading in `reload`: the open may fail, the
read may fail, or the full content is obtained. -/
inductive FileRead where
  | openFail
  | readFail
  | content (c : List Char)
deriving DecidableEq

/-- `ReloadableParser.reload` (lines 318-336): open the file (error on
failure), parse it with a fresh `ADIFParser` (error on `ParseFile`
failure, i.e. a read failure), and only then swap the new collection in. -/
def reload (rp : ReloadableParser) (fr : FileRead) :
    Except (List Char) ReloadableParser :=
  match fr with
  | .openFail => .error "failed to open ADIF file".toList
  | .readFail =>
    match parseFile [] none with
    | .error e => .error ("failed to parse ADIF file: ".toList ++ e)
    | .ok qsos => .ok { rp with qsos := qsos }
  | .content c =>
    match parseFile [] (some c) with
    | .error e => .error ("failed to parse ADIF file: ".toList ++ e)
    | .ok qsos => .ok { rp with qsos := qsos }

/-- The state transition seen by the owner of the `ReloadableParser`: Go
mutates `rp.parser` only in the success branch, so on error the previous
state stays in effect and the error is returned to the caller. -/
def reloadStep (rp : ReloadableParser) (fr : FileRead) :
    ReloadableParser × Option (List Char) :=
  match reload rp fr with
  | .error e => (rp, some e)
  | .ok rp2 => (rp2, none)

/-- `ReloadableParser.getParser` (lines 353-357): the currently served
collection. -/
def getParser (rp : ReloadableParser) : List QSO := rp.qsos

/-! ## Helper lemmas -/

theorem parseChunks_append (st : List QSO) (chunks : List (List Char)) :
    parseChunks st chunks = st ++ parseChunks [] chunks := by
  induction chunks generalizing st with
  | nil => simp [parseChunks]
  | cons c rest ih =>
    by_cases h : trimSpace c = []
    · simp only [parseChunks, h, if_pos]
      exact ih st
    · simp only [parseChunks, h, if_neg, if_false]
      cases hp : parseRecord (trimSpace c) with
      | error e => simpa [hp] using ih st
      | ok q =>
        simp only [hp]
        rw [ih (st ++ [q]), ih ([] ++ [q])]
        simp

theorem parseContent_append (st : List QSO) (content : List Char) :
    parseContent st content = st ++ parseContent [] content := by
  unfold parseContent
  exact parseChunks_append st _

/-! ## C7 -/

/-- C7: round-trip — a record parsed with `qso_date=20240115` and
`time_on=143000` obtains the timestamp 2024-01-15T14:30:00 UTC, and
`FormatDate`/`FormatTime` render it as `2024-01-15` and `14:30`. -/
theorem c7_roundtrip :
    (recordQSO "<call:4>W1AW<qso_date:8>20240115<time_on:6>143000".toList).timestamp
      = utcInstant 2024 1 15 14 30 0 ∧
    formatDate (recordQSO "<call:4>W1AW<qso_date:8>20240115<time_on:6>143000".toList)
      = "2024-01-15".toList ∧
    formatTime (recordQSO "<call:4>W1AW<qso_date:8>20240115<time_on:6>143000".toList)
      = "14:30".toList := by
  refine ⟨by decide, by decide, by decide⟩

/-! ## C8 -/

/-- C8, counterexample: content from which no valid record can be produced
parses *successfully* into an empty collection — `ParseFile` does not
surface a "zero valid records" failure, contradicting the claim that such
content yields an error of the read-failure class. -/
theorem c8_counterexample :
    parseFile [] (some "this content has no valid records".toList) = .ok [] ∧
    parseContent [] "this content has no valid records".toList = [] :=
  ⟨rfl, by decide⟩

/-- C8, amended: `ParseFile` surfaces a hard failure exactly when reading
the input fails; successfully read content — including content yielding
zero valid records — always parses successfully, into whatever valid
records it contains (possibly none). -/
theorem c8_read_failure_only :
    (∀ st : List QSO, parseFile st none = .error "failed to read ADIF file".toList) ∧
    (∀ (st : List QSO) (content : List Char),
      parseFile st (some content) = .ok (parseContent st content)) :=
  ⟨fun _ => rfl, fun _ _ => rfl⟩

/-! ## C9 -/

/-- C9: `ParseFile` accumulates — parsing appends the new text's valid
records after whatever the parser already holds, so parsing `t1` then `t2`
yields the concatenation of their record lists, parsing the same text twice
doubles the record count, and the reload path constructs a fresh parser so
its collection is exactly the single file's records. -/
theorem c9_accumulation :
    (∀ (st : List QSO) (t1 : List Char),
      parseContent st t1 = st ++ parseContent [] t1) ∧
    (∀ (st : List QSO) (t1 t2 : List Char),
      parseContent (parseContent st t1) t2
        = st ++ parseContent [] t1 ++ parseContent [] t2) ∧
    (∀ t : List Char,
      (parseContent (parseContent [] t) t).length = 2 * (parseContent [] t).length) ∧
    (∀ (rp : ReloadableParser) (c : List Char),
      (reloadStep rp (.content c)).1.qsos = parseContent [] c) := by
  refine ⟨parseContent_append, ?_, ?_, ?_⟩
  · intro st t1 t2
    rw [parseContent_append (parseContent st t1) t2, parseContent_append st t1,
      List.append_assoc]
  · intro t
    rw [parseContent_append (parseContent [] t) t]
    simp [Nat.two_mul]
  · intro rp c
    simp [reloadStep, reload, parseFile]

/-! ## C6 -/

/-- C6: `reload()` re-reads and re-parses the file and swaps the new
collection in only on success; on an open or read failure it returns an
error and the previously current collection (as returned by `getParser`)
is unchanged. -/
theorem c6_reload (rp : ReloadableParser) (fr : FileRead) :
    (fr = .openFail ∨ fr = .readFail →
      (reloadStep rp fr).2.isSome = true ∧ (reloadStep rp fr).1 = rp ∧
      getParser (reloadStep rp fr).1 = getParser rp) ∧
    (∀ c, fr = .content c →
      reloadStep rp fr = ({ rp with qsos := parseContent [] c }, none)) := by
  constructor
  · rintro (rfl | rfl) <;> exact ⟨rfl, rfl, rfl⟩
  · rintro c rfl
    simp [reloadStep, reload, parseFile]

/-- Witness for C6 at a concrete state and a failing open. -/
theorem c6_reload_witness :
    (reloadStep ⟨[], []⟩ .openFail).2.isSome = true ∧
    (reloadStep ⟨[], []⟩ .openFail).1 = (⟨[], []⟩ : ReloadableParser) ∧
    getParser (reloadStep ⟨[], []⟩ .openFail).1 = getParser ⟨[], []⟩ :=
  (c6_reload ⟨[], []⟩ .openFail).1 (Or.inl rfl)

/-! ## C5 -/

theorem applyField_timestamp (q : QSO) (n v : List Char) :
    (applyField q n v).timestamp = q.timestamp := by
  unfold applyField
  by_cases h1 : n = "call".toList
  · rw [if_pos h1]
  rw [if_neg h1]
  by_cases h2 : n = "qso_date".toList
  · rw [if_pos h2]
  rw [if_neg h2]
  by_cases h3 : n = "time_on".toList
  · rw [if_pos h3]
  rw [if_neg h3]
  by_cases h4 : n = "qso_date_off".toList
  · rw [if_pos h4]
  rw [if_neg h4]
  by_cases h5 : n = "time_off".toList
  · rw [if_pos h5]
  rw [if_neg h5]
  by_cases h6 : n = "band".toList
  · rw [if_pos h6]
  rw [if_neg h6]
  by_cases h7 : n = "mode".toList
  · rw [if_pos h7]
  rw [if_neg h7]
  by_cases h8 : n = "freq".toList
  · rw [if_pos h8]
  rw [if_neg h8]
  by_cases h9 : n = "rst_sent".toList
  · rw [if_pos h9]
  rw [if_neg h9]
  by_cases h10 : n = "rst_rcvd".toList
  · rw [if_pos h10]
  rw [if_neg h10]
  by_cases h11 : n = "qth".toList
  · rw [if_pos h11]
  rw [if_neg h11]
  by_cases h12 : n = "name".toList
  · rw [if_pos h12]
  rw [if_neg h12]
  by_cases h13 : n = "comment".toList
  · rw [if_pos h13]
  rw [if_neg h13]
  by_cases h14 : n = "gridsquare".toList
  · rw [if_pos h14]
  rw [if_neg h14]
  by_cases h15 : n = "country".toList
  · rw [if_pos h15]
  rw [if_neg h15]
  by_cases h16 : n = "dxcc".toList
  · rw [if_pos h16]
  rw [if_neg h16]
  by_cases h17 : n = "my_gridsquare".toList
  · rw [if_pos h17]
  rw [if_neg h17]
  by_cases h18 : n = "station_callsign".toList
  · rw [if_pos h18]
  rw [if_neg h18]
  by_cases h19 : n = "my_rig".toList
  · rw [if_pos h19]
  rw [if_neg h19]
  by_cases h20 : n = "my_antenna".toList
  · rw [if_pos h20]
  rw [if_neg h20]
  by_cases h21 : n = "tx_pwr".toList
  · rw [if_pos h21]
  rw [if_neg h21]
  by_cases h22 : n = "qsl_sent".toList
  · rw [if_pos h22]
  rw [if_neg h22]
  by_cases h23 : n = "qsl_rcvd".toList
  · rw [if_pos h23]
  rw [if_neg h23]
  by_cases h24 : n = "lotw_qsl_sent".toList
  · rw [if_pos h24]
  rw [if_neg h24]
  by_cases h25 : n = "lotw_qsl_rcvd".toList
  · rw [if_pos h25]
  rw [if_neg h25]
  by_cases h26 : n = "eqsl_qsl_sent".toList
  · rw [if_pos h26]
  rw [if_neg h26]
  by_cases h27 : n = "eqsl_qsl_rcvd".toList
  · rw [if_pos h27]
  rw [if_neg h27]

theorem applyMatch_timestamp (q : QSO) (m : List Char × List Char × List Char) :
    (applyMatch q m).timestamp = q.timestamp := by
  unfold applyMatch
  split
  · rfl
  · split
    · rfl
    · exact applyField_timestamp ..

theorem foldMatches_timestamp (ms : List (List Char × List Char × List Char))
    (q : QSO) : (ms.foldl applyMatch q).timestamp = q.timestamp := by
  induction ms generalizing q with
  | nil => rfl
  | cons m rest ih => rw [List.foldl_cons, ih, applyMatch_timestamp]

theorem parseTimestamp_inv {d t : List Char} {v : Int}
    (h : parseTimestamp d t = some v) :
    d.length = 8 ∧ t.length = 6 ∧
    ∃ y mo dy hr mi s,
      goAtoi (d.take 4) = some y ∧ goAtoi ((d.drop 4).take 2) = some mo ∧
      goAtoi (d.drop 6) = some dy ∧ goAtoi (t.take 2) = some hr ∧
      goAtoi ((t.drop 2).take 2) = some mi ∧ goAtoi (t.drop 4) = some s ∧
      v = goDate y mo dy hr mi s := by
  unfold parseTimestamp at h
  split at h
  · exact absurd h (by simp)
  · next hc =>
    push_neg at hc
    refine ⟨hc.1, hc.2, ?_⟩
    split at h
    · next y mo dy hr mi s hy hmo hdy hhr hmi hs =>
      exact ⟨y, mo, dy, hr, mi, s, hy, hmo, hdy, hhr, hmi, hs,
        (Option.some.injEq _ _ ▸ h).symm⟩
    · exact absurd h (by simp)

/-- C5, amended: the derived timestamp is non-zero only when `qsoDate` and
`timeOn` are both present and pass the actual well-formedness check of the
code — `qsoDate` exactly 8 characters, `timeOn` exactly 6, and all six
components accepted by `strconv.Atoi` — in which case it is the
`time.Date` UTC instant of those components.  Component *ranges* are not
validated: out-of-range values (e.g. month 13) are normalised by calendar
arithmetic rather than zeroing the timestamp.  Length- or digit-malformed
combinations leave the timestamp zero, and the record remains valid
whenever `call` and `qsoDate` are non-empty. -/
theorem c5_timestamp_wellformed :
    (∀ rec : List Char, (recordQSO rec).timestamp ≠ 0 →
      (recordQSO rec).qsoDate ≠ [] ∧ (recordQSO rec).timeOn ≠ [] ∧
      parseTimestamp (recordQSO rec).qsoDate (recordQSO rec).timeOn
        = some (recordQSO rec).timestamp) ∧
    (∀ (d t : List Char) (v : Int), parseTimestamp d t = some v →
      d.length = 8 ∧ t.length = 6 ∧
      ∃ y mo dy hr mi s,
        goAtoi (d.take 4) = some y ∧ goAtoi ((d.drop 4).take 2) = some mo ∧
        goAtoi (d.drop 6) = some dy ∧ goAtoi (t.take 2) = some hr ∧
        goAtoi ((t.drop 2).take 2) = some mi ∧ goAtoi (t.drop 4) = some s ∧
        v = goDate y mo dy hr mi s) ∧
    (∀ d t : List Char, d.length ≠ 8 ∨ t.length ≠ 6 → parseTimestamp d t = none) ∧
    (∀ rec : List Char, (recordQSO rec).call ≠ [] → (recordQSO rec).qsoDate ≠ [] →
      parseRecord rec = .ok (recordQSO rec)) := by
  have hmap : ∀ rec : List Char, (mappedQSO rec).timestamp = 0 := fun rec =>
    foldMatches_timestamp (findFields rec) {}
  have hderive : ∀ q : QSO, q.timestamp = 0 → (deriveTimestamp q).timestamp ≠ 0 →
      (deriveTimestamp q).qsoDate ≠ [] ∧ (deriveTimestamp q).timeOn ≠ [] ∧
      parseTimestamp (deriveTimestamp q).qsoDate (deriveTimestamp q).timeOn
        = some (deriveTimestamp q).timestamp := by
    intro q hq hts
    unfold deriveTimestamp at hts ⊢
    by_cases hcond : q.qsoDate ≠ [] ∧ q.timeOn ≠ []
    · rw [if_pos hcond] at hts ⊢
      cases hp : parseTimestamp q.qsoDate q.timeOn with
      | none => rw [hp] at hts; exact absurd hq hts
      | some ts =>
        rw [hp] at hts ⊢
        exact ⟨hcond.1, hcond.2, rfl⟩
    · rw [if_neg hcond] at hts
      exact absurd hq hts
  refine ⟨?_, fun d t v h => parseTimestamp_inv h, ?_, ?_⟩
  · intro rec hts
    exact hderive (mappedQSO rec) (hmap rec) hts
  · intro d t h
    unfold parseTimestamp
    split
    · rfl
    · next hc => push_neg at hc; rcases h with h | h <;> simp [hc.1, hc.2] at h
  · intro rec hcall hdate
    unfold parseRecord validateQSO
    split
    · next hbad => rcases hbad with h | h <;> simp [h] at hcall hdate
    · rfl

/-- C5, counterexample: the month component `13` lies outside 1–12, yet the
record obtains a *non-zero* timestamp — `time.Date` normalises 2024-13-01
to 2025-01-01 instead of rejecting it, contradicting the claim that a month
outside 1–12 leaves the timestamp zero. -/
theorem c5_counterexample :
    ((recordQSO "<call:4>TEST<qso_date:8>20241301<time_on:6>000000".toList).qsoDate.drop 4).take 2
      = "13".toList ∧
    (recordQSO "<call:4>TEST<qso_date:8>20241301<time_on:6>000000".toList).timestamp
      = utcInstant 2025 1 1 0 0 0 ∧
    (recordQSO "<call:4>TEST<qso_date:8>20241301<time_on:6>000000".toList).timestamp ≠ 0 := by
  refine ⟨by decide, by decide, by decide⟩

/-- Witness for C5 at a concrete record with a well-formed date and time. -/
theorem c5_timestamp_wellformed_witness :
    (recordQSO "<call:2>AA<qso_date:8>20230505<time_on:6>101500".toList).qsoDate ≠ [] ∧
    (recordQSO "<call:2>AA<qso_date:8>20230505<time_on:6>101500".toList).timeOn ≠ [] ∧
    parseTimestamp (recordQSO "<call:2>AA<qso_date:8>20230505<time_on:6>101500".toList).qsoDate
        (recordQSO "<call:2>AA<qso_date:8>20230505<time_on:6>101500".toList).timeOn
      = some (recordQSO "<call:2>AA<qso_date:8>20230505<time_on:6>101500".toList).timestamp :=
  c5_timestamp_wellformed.1 "<call:2>AA<qso_date:8>20230505<time_on:6>101500".toList (by decide)

/-! ## Bubble sort machinery (shared by C3, C4, C10) -/

section Bubble

variable {f : QSO → QSO → Bool}

theorem bpassN_perm (m : Nat) (l : List QSO) : (bpassN f m l).Perm l := by
  induction m generalizing l with
  | zero => exact .refl _
  | succ m ih =>
    match l with
    | [] => exact .refl _
    | [a] => exact .refl _
    | a :: b :: r =>
      show (if f a b then b :: bpassN f m (a :: r) else a :: bpassN f m (b :: r)).Perm _
      split
      · exact ((ih (a :: r)).cons b).trans (List.Perm.swap a b r)
      · exact (ih (b :: r)).cons a

theorem bpassN_filter (p : QSO → Bool)
    (hk : ∀ a b, p a = true → p b = true → f a b = false) (m : Nat)
    (l : List QSO) : (bpassN f m l).filter p = l.filter p := by
  induction m generalizing l with
  | zero => rfl
  | succ m ih =>
    match l with
    | [] => rfl
    | [a] => rfl
    | a :: b :: r =>
      show (if f a b then b :: bpassN f m (a :: r) else a :: bpassN f m (b :: r)).filter p = _
      split
      · next hab =>
        by_cases hpa : p a = true <;> by_cases hpb : p b = true
        · exact absurd (hk a b hpa hpb) (by rw [hab]; simp)
        all_goals simp only [List.filter_cons, ih (a :: r), List.filter_cons]
        all_goals simp [hpa, hpb]
      · next hab =>
        simp only [List.filter_cons, ih (b :: r), List.filter_cons]

theorem bpass_cons2 (a b : QSO) (r : List QSO) :
    bpass f (a :: b :: r)
      = if f a b then b :: bpass f (a :: r) else a :: bpass f (b :: r) := by
  simp [bpass]

theorem bpassN_eq_append (u s : List QSO) (m : Nat) (hm : u.length = m + 1) :
    bpassN f m (u ++ s) = bpass f u ++ s := by
  induction m generalizing u with
  | zero =>
    obtain ⟨a, rfl⟩ : ∃ a, u = [a] := by
      cases u with
      | nil => simp at hm
      | cons a u' =>
        cases u' with
        | nil => exact ⟨a, rfl⟩
        | cons b u'' => simp at hm
    rw [show bpass f [a] = [a] by simp [bpass]]
    rfl
  | succ m ih =>
    obtain ⟨a, b, r, rfl⟩ : ∃ a b r, u = a :: b :: r := by
      cases u with
      | nil => simp at hm
      | cons a u' =>
        cases u' with
        | nil => simp at hm
        | cons b r => exact ⟨a, b, r, rfl⟩
    have h1 : (a :: r).length = m + 1 := by simp at hm ⊢; omega
    have h2 : (b :: r).length = m + 1 := by simp at hm ⊢; omega
    rw [bpass_cons2]
    show (if f a b then b :: bpassN f m (a :: (r ++ s))
          else a :: bpassN f m (b :: (r ++ s)))
        = (if f a b then b :: bpass f (a :: r) else a :: bpass f (b :: r)) ++ s
    by_cases hab : f a b = true
    · rw [if_pos hab, if_pos hab,
        show (a : QSO) :: (r ++ s) = (a :: r) ++ s from rfl, ih (a :: r) h1]
      rfl
    · rw [if_neg hab, if_neg hab,
        show (b : QSO) :: (r ++ s) = (b :: r) ++ s from rfl, ih (b :: r) h2]
      rfl

theorem bpass_eq (u : List QSO) (hu : u ≠ []) :
    bpass f u = bpassN f (u.length - 1) u := by
  have hm : u.length = (u.length - 1) + 1 := by
    cases u with
    | nil => exact absurd rfl hu
    | cons a u' => simp
  have h := bpassN_eq_append (f := f) u [] (u.length - 1) hm
  simp only [List.append_nil] at h
  exact h.symm

theorem bpass_perm (u : List QSO) : (bpass f u).Perm u := by
  cases hu : u with
  | nil =>
    rw [show bpass f [] = [] by simp [bpass]]
  | cons a u' =>
    rw [← hu, bpass_eq u (by rw [hu]; simp)]
    exact bpassN_perm _ u

theorem bpass_deposit (hirr : ∀ a, f a a = false)
    (htr : ∀ a b c, f a b = true → f b c = true → f a c = true)
    (hneg : ∀ a b c, f a b = false → f b c = false → f a c = false) :
    ∀ l : List QSO, l ≠ [] →
      ∃ u m, bpass f l = u ++ [m] ∧ (∀ x ∈ l, f x m = false) := by
  intro l
  induction l using bpass.induct (f := f) with
  | case1 => intro h; exact absurd rfl h
  | case2 c =>
    intro _
    refine ⟨[], c, by simp [bpass], ?_⟩
    intro x hx
    simp only [List.mem_singleton] at hx
    subst hx
    exact hirr x
  | case3 a b r hab ih =>
    intro _
    obtain ⟨u', m, heq, hall⟩ := ih (by simp)
    refine ⟨b :: u', m, ?_, ?_⟩
    · rw [bpass_cons2, if_pos hab, heq]
      rfl
    · intro x hx
      rcases List.mem_cons.mp hx with rfl | hx'
      · exact hall x (by simp)
      · rcases List.mem_cons.mp hx' with rfl | hx''
        · cases hxm : f x m with
          | false => rfl
          | true =>
            have h2 := htr a x m hab hxm
            have h3 := hall a (by simp)
            rw [h2] at h3
            simp at h3
        · exact hall x (by simp [hx''])
  | case4 a b r hab ih =>
    intro _
    have hab' : f a b = false := by simpa using hab
    obtain ⟨u', m, heq, hall⟩ := ih (by simp)
    refine ⟨a :: u', m, ?_, ?_⟩
    · rw [bpass_cons2, if_neg hab, heq]
      rfl
    · intro x hx
      rcases List.mem_cons.mp hx with rfl | hx'
      · exact hneg x b m hab' (hall b (by simp))
      · exact hall x hx'

theorem bubbleAux_perm (k : Nat) (l : List QSO) : (bubbleAux f k l).Perm l := by
  induction k generalizing l with
  | zero => exact .refl _
  | succ k ih =>
    show (bubbleAux f k (bpassN f (k + 1) l)).Perm l
    exact (ih _).trans (bpassN_perm _ l)

theorem bubbleAux_filter (p : QSO → Bool)
    (hk : ∀ a b, p a = true → p b = true → f a b = false) (k : Nat)
    (l : List QSO) : (bubbleAux f k l).filter p = l.filter p := by
  induction k generalizing l with
  | zero => rfl
  | succ k ih =>
    show (bubbleAux f k (bpassN f (k + 1) l)).filter p = _
    rw [ih _, bpassN_filter p hk]

theorem bubbleAux_sorted (hirr : ∀ a, f a a = false)
    (htr : ∀ a b c, f a b = true → f b c = true → f a c = true)
    (hneg : ∀ a b c, f a b = false → f b c = false → f a c = false) :
    ∀ (k : Nat) (u s : List QSO), u.length = k + 1 →
      s.Pairwise (fun a b => f a b = false) →
      (∀ x ∈ u, ∀ y ∈ s, f x y = false) →
      (bubbleAux f k (u ++ s)).Pairwise (fun a b => f a b = false) := by
  intro k
  induction k with
  | zero =>
    intro u s hu hs hus
    obtain ⟨a, rfl⟩ : ∃ a, u = [a] := by
      cases u with
      | nil => simp at hu
      | cons a u' =>
        cases u' with
        | nil => exact ⟨a, rfl⟩
        | cons b u'' => simp at hu
    exact List.Pairwise.cons (fun y hy => hus a (by simp) y hy) hs
  | succ k ih =>
    intro u s hu hs hus
    show (bubbleAux f k (bpassN f (k + 1) (u ++ s))).Pairwise _
    rw [bpassN_eq_append u s (k + 1) hu]
    have hune : u ≠ [] := by intro h; subst h; simp at hu
    obtain ⟨u', m, heq, hall⟩ := bpass_deposit hirr htr hneg u hune
    have hperm : (u' ++ [m]).Perm u := heq ▸ bpass_perm u
    have hmem : ∀ x ∈ u' ++ [m], x ∈ u := fun x hx => hperm.subset hx
    have hmu : m ∈ u := hmem m (by simp)
    have hlen : u'.length = k + 1 := by
      have hl := hperm.length_eq
      simp at hl
      omega
    rw [heq, show u' ++ [m] ++ s = u' ++ (m :: s) by simp]
    apply ih u' (m :: s) hlen
    · exact List.Pairwise.cons (fun y hy => hus m hmu y hy) hs
    · intro x hx y hy
      rcases List.mem_cons.mp hy with rfl | hy'
      · exact hall x (hmem x (List.mem_append_left _ hx))
      · exact hus x (hmem x (List.mem_append_left _ hx)) y hy'

theorem bubbleSortBy_perm (l : List QSO) : (bubbleSortBy f l).Perm l :=
  bubbleAux_perm _ l

theorem bubbleSortBy_length (l : List QSO) :
    (bubbleSortBy f l).length = l.length :=
  (bubbleSortBy_perm l).length_eq

theorem bubbleSortBy_filter (p : QSO → Bool)
    (hk : ∀ a b, p a = true → p b = true → f a b = false) (l : List QSO) :
    (bubbleSortBy f l).filter p = l.filter p :=
  bubbleAux_filter p hk _ l

theorem bubbleSortBy_sorted (hirr : ∀ a, f a a = false)
    (htr : ∀ a b c, f a b = true → f b c = true → f a c = true)
    (hneg : ∀ a b c, f a b = false → f b c = false → f a c = false)
    (l : List QSO) :
    (bubbleSortBy f l).Pairwise (fun a b => f a b = false) := by
  cases l with
  | nil => exact List.Pairwise.nil
  | cons a l' =>
    have h := bubbleAux_sorted hirr htr hneg l'.length (a :: l') []
      (by simp) List.Pairwise.nil (by simp)
    simpa [bubbleSortBy] using h

end Bubble

/-! ## C10 and C3 -/

theorem tsSwap_irrefl (a : QSO) : tsSwap a a = false := by
  simp [tsSwap]

theorem tsSwap_trans (a b c : QSO) (h1 : tsSwap a b = true)
    (h2 : tsSwap b c = true) : tsSwap a c = true := by
  simp only [tsSwap, decide_eq_true_eq] at h1 h2 ⊢
  omega

theorem tsSwap_negtrans (a b c : QSO) (h1 : tsSwap a b = false)
    (h2 : tsSwap b c = false) : tsSwap a c = false := by
  simp only [tsSwap, decide_eq_false_iff_not, not_lt] at h1 h2 ⊢
  omega

/-- C10: `GetLatestQSOs(limit)` terminates normally for every collection
when `limit ≥ 0`, returning exactly `min limit (collection size)` records;
for a negative limit on a non-empty collection the slice `qsos[:limit]` is
out of bounds (a Go panic, modelled as `none`), so the `limit ≥ 0`
precondition is required for totality. -/
theorem c10_latest_totality :
    (∀ (qsos : List QSO) (limit : Int), 0 ≤ limit →
      ∃ l, getLatestQSOs qsos limit = some l ∧
        l.length = min limit.toNat qsos.length) ∧
    (∀ (qsos : List QSO) (limit : Int), qsos ≠ [] → limit < 0 →
      getLatestQSOs qsos limit = none) := by
  constructor
  · intro qsos limit hlim
    unfold getLatestQSOs
    by_cases hq : qsos.length = 0
    · rw [if_pos hq]
      exact ⟨[], rfl, by simp [hq]⟩
    · rw [if_neg hq]
      have hlen : (bubbleSortBy tsSwap qsos).length = qsos.length :=
        bubbleSortBy_length qsos
      by_cases hlt : ((bubbleSortBy tsSwap qsos).length : Int) < limit
      · rw [if_pos hlt]
        exact ⟨_, rfl, by omega⟩
      · rw [if_neg hlt, if_neg (by omega)]
        refine ⟨_, rfl, ?_⟩
        rw [List.length_take, hlen]
  · intro qsos limit hne hlim
    unfold getLatestQSOs
    rw [if_neg (by simpa using hne), if_neg (by omega), if_pos hlim]

/-- Witness for C10 at a one-record collection with limits `1` and `-1`. -/
theorem c10_latest_totality_witness :
    (∃ l, getLatestQSOs [{ call := "A".toList }] 1 = some l ∧
      l.length = min (1 : Int).toNat [{ call := "A".toList : QSO }].length) ∧
    getLatestQSOs [{ call := "A".toList }] (-1) = none :=
  ⟨c10_latest_totality.1 [{ call := "A".toList }] 1 (by decide),
   c10_latest_totality.2 [{ call := "A".toList }] (-1) (by decide) (by decide)⟩

theorem zeros_suffix : ∀ l : List QSO,
    l.Pairwise (fun a b => b.timestamp ≤ a.timestamp) →
    (∀ q ∈ l, 0 ≤ q.timestamp) →
    ∃ A B, l = A ++ B ∧ (∀ q ∈ A, q.timestamp ≠ 0) ∧
      (∀ q ∈ B, q.timestamp = 0) := by
  intro l
  induction l with
  | nil => exact fun _ _ => ⟨[], [], rfl, by simp, by simp⟩
  | cons a l2 ih =>
    intro hp hnn
    rcases List.pairwise_cons.mp hp with ⟨ha, hp2⟩
    by_cases haz : a.timestamp = 0
    · refine ⟨[], a :: l2, rfl, by simp, ?_⟩
      intro q hq
      rcases List.mem_cons.mp hq with rfl | hq2
      · exact haz
      · have h1 := ha q hq2
        have h2 := hnn q (by simp [hq2])
        omega
    · obtain ⟨A, B, heq, hA, hB⟩ := ih hp2 (fun q hq => hnn q (by simp [hq]))
      refine ⟨a :: A, B, by rw [heq]; rfl, ?_, hB⟩
      intro q hq
      rcases List.mem_cons.mp hq with rfl | hq2
      · exact haz
      · exact hA q hq2

/-- C3, amended: for `limit ≥ 0`, `GetLatestQSOs` returns the first
`min(limit, size)` elements of a stable sort of the collection by timestamp
descending — a permutation, pairwise descending, preserving parse order
among equal timestamps (the filter at any fixed timestamp is unchanged).
When every timestamp is at or after the zero `time.Time` instant, records
with a zero timestamp sort as oldest, at the end; but a parseable record
dated before year 1 sorts *below* the zero timestamp, so without that
hypothesis zero-timestamp records need not be at the end (see the
counterexample). -/
theorem c3_latest_stable_sort (qsos : List QSO) (limit : Int)
    (hlim : 0 ≤ limit) :
    ∃ sorted : List QSO,
      getLatestQSOs qsos limit = some (sorted.take limit.toNat) ∧
      (sorted.take limit.toNat).length = min limit.toNat qsos.length ∧
      sorted.Perm qsos ∧
      sorted.Pairwise (fun a b => b.timestamp ≤ a.timestamp) ∧
      (∀ t : Int, sorted.filter (fun q => q.timestamp = t)
        = qsos.filter (fun q => q.timestamp = t)) ∧
      ((∀ q ∈ qsos, 0 ≤ q.timestamp) →
        ∃ A B, sorted = A ++ B ∧ (∀ q ∈ A, q.timestamp ≠ 0) ∧
          (∀ q ∈ B, q.timestamp = 0)) := by
  have hsorted : (bubbleSortBy tsSwap qsos).Pairwise
      (fun a b => b.timestamp ≤ a.timestamp) := by
    have h := bubbleSortBy_sorted tsSwap_irrefl tsSwap_trans tsSwap_negtrans qsos
    exact h.imp (fun hab => by
      simpa only [tsSwap, decide_eq_false_iff_not, not_lt] using hab)
  refine ⟨bubbleSortBy tsSwap qsos, ?_, ?_, bubbleSortBy_perm qsos, hsorted, ?_, ?_⟩
  · unfold getLatestQSOs
    by_cases hq : qsos.length = 0
    · rw [if_pos hq]
      have h0 : qsos = [] := List.length_eq_zero.mp hq
      subst h0
      rw [show bubbleSortBy tsSwap ([] : List QSO) = [] from rfl, List.take_nil]
    · rw [if_neg hq]
      have hlen : (bubbleSortBy tsSwap qsos).length = qsos.length :=
        bubbleSortBy_length qsos
      by_cases hlt : ((bubbleSortBy tsSwap qsos).length : Int) < limit
      · rw [if_pos hlt, List.take_of_length_le (by omega)]
      · rw [if_neg hlt, if_neg (by omega)]
  · rw [List.length_take, bubbleSortBy_length]
  · intro t
    exact bubbleSortBy_filter _ (fun a b ha hb => by
      simp only [decide_eq_true_eq] at ha hb
      simp [tsSwap, ha, hb]) qsos
  · intro hnn
    exact zeros_suffix _ hsorted
      (fun q hq => hnn q ((bubbleSortBy_perm qsos).subset hq))

/-- Witness for C3 at a concrete two-record collection and `limit = 1`. -/
theorem c3_latest_stable_sort_witness :
    ∃ sorted : List QSO,
      getLatestQSOs [{ timestamp := 5 }, { timestamp := 9 }] 1
          = some (sorted.take (1 : Int).toNat) ∧
      (sorted.take (1 : Int).toNat).length
          = min (1 : Int).toNat [{ timestamp := 5 }, { timestamp := 9 : QSO }].length ∧
      sorted.Perm [{ timestamp := 5 }, { timestamp := 9 }] ∧
      sorted.Pairwise (fun a b => b.timestamp ≤ a.timestamp) ∧
      (∀ t : Int, sorted.filter (fun q => q.timestamp = t)
        = [{ timestamp := 5 }, { timestamp := 9 : QSO }].filter
            (fun q => q.timestamp = t)) ∧
      ((∀ q ∈ [{ timestamp := 5 }, { timestamp := 9 : QSO }], 0 ≤ q.timestamp) →
        ∃ A B, sorted = A ++ B ∧ (∀ q ∈ A, q.timestamp ≠ 0) ∧
          (∀ q ∈ B, q.timestamp = 0)) :=
  c3_latest_stable_sort [{ timestamp := 5 }, { timestamp := 9 }] 1 (by decide)

/-- C3, counterexample: a record parsed from `qso_date 00000101`,
`time_on 000000` has a timestamp *before* the zero `time.Time` (year 0
precedes year 1), so it sorts below the zero timestamp: `GetLatestQSOs`
places the zero-timestamp record first and the year-0 record last,
refuting "records with a zero timestamp sort as oldest, at the end". -/
theorem c3_counterexample :
    (parseContent []
        "<call:2>AA<qso_date:8>20240101<eor><call:2>BB<qso_date:8>00000101<time_on:6>000000<eor>".toList).map
        (fun q => q.timestamp) = [0, -31622400] ∧
    (getLatestQSOs (parseContent []
        "<call:2>AA<qso_date:8>20240101<eor><call:2>BB<qso_date:8>00000101<time_on:6>000000<eor>".toList)
        2).map (fun r => r.map (fun q => q.timestamp)) = some [0, -31622400] := by
  exact ⟨by decide, by decide⟩

/-! ## C2 -/

/-- The `tolerance` computed by `SearchQSO` (line 248):
`time.Duration(toleranceMinutes) * time.Minute` in wrapping int64
arithmetic. -/
def goTolerance (tolMin : Int) : Int :=
  wrap64 (wrap64 tolMin * 60000000000)

/-- Specification-side set of eligible records for `SearchQSO`: exact match
on the trimmed, upper-cased call sign, non-zero timestamp, and the code's
`Duration` distance (saturating `Sub`, wrapping negation) within the code's
`Duration` tolerance (inclusive boundary), in collection order. -/
def searchMatches (qsos : List QSO) (callSign : List Char)
    (t tolMin : Int) : List QSO :=
  qsos.filter (fun q => q.call = (trimSpace callSign).map asciiUpper ∧
    q.timestamp ≠ 0 ∧ goAbsDiff q.timestamp t ≤ goTolerance tolMin)

/-- Specification-side selection: the first element of the list attaining
the minimum of `g` (later elements win only with a strictly smaller value,
so ties go to the earliest occurrence). -/
def firstMinBy (g : QSO → Int) : List QSO → Option QSO
  | [] => none
  | a :: l =>
    match firstMinBy g l with
    | none => some a
    | some b => if g a ≤ g b then some a else some b

theorem firstMinBy_cons_none {g : QSO → Int} {l : List QSO}
    (hl : firstMinBy g l = none) (a : QSO) :
    firstMinBy g (a :: l) = some a := by
  unfold firstMinBy
  rw [hl]

theorem firstMinBy_cons_some {g : QSO → Int} {l : List QSO} {c : QSO}
    (hl : firstMinBy g l = some c) (a : QSO) :
    firstMinBy g (a :: l) = if g a ≤ g c then some a else some c := by
  unfold firstMinBy
  rw [hl]

theorem firstMinBy_ne_none (g : QSO → Int) (a : QSO) (l : List QSO) :
    firstMinBy g (a :: l) ≠ none := by
  cases hl : firstMinBy g l with
  | none => rw [firstMinBy_cons_none hl a]; simp
  | some c => rw [firstMinBy_cons_some hl a]; split <;> simp

theorem firstMinBy_mem {g : QSO → Int} :
    ∀ {l : List QSO} {b : QSO}, firstMinBy g l = some b → b ∈ l := by
  intro l
  induction l with
  | nil => intro b h; simp [firstMinBy] at h
  | cons a l2 ih =>
    intro b h
    cases hl : firstMinBy g l2 with
    | none =>
      rw [firstMinBy_cons_none hl a] at h
      simp at h
      simp [h]
    | some c =>
      rw [firstMinBy_cons_some hl a] at h
      split at h
      · simp at h; subst h; simp
      · simp at h; subst h; simp [List.mem_cons, ih hl]

theorem firstMinBy_min {g : QSO → Int} :
    ∀ {l : List QSO} {b : QSO}, firstMinBy g l = some b →
      ∀ x ∈ l, g b ≤ g x := by
  intro l
  induction l with
  | nil => intro b h; simp [firstMinBy] at h
  | cons a l2 ih =>
    intro b h x hx
    cases hl : firstMinBy g l2 with
    | none =>
      rw [firstMinBy_cons_none hl a] at h
      simp at h
      subst h
      rcases List.mem_cons.mp hx with rfl | hx2
      · exact le_refl _
      · cases l2 with
        | nil => simp at hx2
        | cons y l3 => exact absurd hl (firstMinBy_ne_none g y l3)
    | some c =>
      rw [firstMinBy_cons_some hl a] at h
      rcases List.mem_cons.mp hx with rfl | hx2
      · split at h
        · simp at h; subst h; exact le_refl _
        · next hgc => simp at h; subst h; omega
      · have hcx := ih hl x hx2
        split at h
        · next hac => simp at h; subst h; omega
        · simp at h; subst h; exact hcx

theorem firstMinBy_cons_lt {g : QSO → Int} {a b : QSO} {l : List QSO}
    (h : g a < g b) : firstMinBy g (b :: a :: l) = firstMinBy g (a :: l) := by
  cases hc : firstMinBy g (a :: l) with
  | none => exact absurd hc (firstMinBy_ne_none g a l)
  | some c =>
    have hca := firstMinBy_min hc a (by simp)
    rw [firstMinBy_cons_some hc b, if_neg (by omega)]

theorem firstMinBy_cons_ge {g : QSO → Int} {a b : QSO} {l : List QSO}
    (h : g b ≤ g a) : firstMinBy g (b :: a :: l) = firstMinBy g (b :: l) := by
  cases hl : firstMinBy g l with
  | none =>
    rw [firstMinBy_cons_some (firstMinBy_cons_none hl a) b,
      firstMinBy_cons_none hl b, if_pos h]
  | some c =>
    by_cases hac : g a ≤ g c
    · have h1 : firstMinBy g (a :: l) = some a := by
        rw [firstMinBy_cons_some hl a, if_pos hac]
      rw [firstMinBy_cons_some h1 b, firstMinBy_cons_some hl b, if_pos h,
        if_pos (le_trans h hac)]
    · have h1 : firstMinBy g (a :: l) = some c := by
        rw [firstMinBy_cons_some hl a, if_neg hac]
      rw [firstMinBy_cons_some h1 b, firstMinBy_cons_some hl b]

theorem goAbsDiff_def (x t : Int) :
    (if goSub x t < 0 then wrap64 (-goSub x t) else goSub x t)
      = goAbsDiff x t := rfl

theorem searchLoop_skip (cs : List Char) (t tol : Int) (a : QSO)
    (rest : List QSO) (acc : Option (QSO × Int))
    (h : a.call ≠ cs ∨ a.timestamp = 0 ∨ ¬(goAbsDiff a.timestamp t ≤ tol)) :
    searchLoop cs t tol (a :: rest) acc = searchLoop cs t tol rest acc := by
  simp only [searchLoop]
  rcases h with h | h | h
  · rw [if_pos h]
  · by_cases hc : a.call ≠ cs
    · rw [if_pos hc]
    · rw [if_neg hc, if_pos h]
  · by_cases hc : a.call ≠ cs
    · rw [if_pos hc]
    · rw [if_neg hc]
      by_cases hz : a.timestamp = 0
      · rw [if_pos hz]
      · rw [if_neg hz, goAbsDiff_def a.timestamp t, if_neg h]

theorem searchLoop_update (cs : List Char) (t tol : Int) (a : QSO)
    (rest : List QSO) (h1 : a.call = cs) (h2 : a.timestamp ≠ 0)
    (h3 : goAbsDiff a.timestamp t ≤ tol) :
    searchLoop cs t tol (a :: rest) none
      = searchLoop cs t tol rest (some (a, goAbsDiff a.timestamp t)) ∧
    ∀ (b : QSO) (best : Int),
      searchLoop cs t tol (a :: rest) (some (b, best))
        = if goAbsDiff a.timestamp t < best
          then searchLoop cs t tol rest (some (a, goAbsDiff a.timestamp t))
          else searchLoop cs t tol rest (some (b, best)) := by
  constructor
  · simp only [searchLoop]
    rw [if_neg (by simp [h1]), if_neg h2, goAbsDiff_def a.timestamp t,
      if_pos h3]
  · intro b best
    simp only [searchLoop]
    rw [if_neg (by simp [h1]), if_neg h2, goAbsDiff_def a.timestamp t,
      if_pos h3]

theorem searchLoop_some (cs : List Char) (t tol : Int) :
    ∀ (l : List QSO) (b : QSO),
      searchLoop cs t tol l (some (b, goAbsDiff b.timestamp t))
        = (firstMinBy (fun q => goAbsDiff q.timestamp t)
            (b :: l.filter (fun q => q.call = cs ∧ q.timestamp ≠ 0 ∧
              goAbsDiff q.timestamp t ≤ tol))).map
            (fun q => (q, goAbsDiff q.timestamp t)) := by
  intro l
  induction l with
  | nil => intro b; rfl
  | cons a rest ih =>
    intro b
    by_cases hcall : a.call = cs
    · by_cases hts : a.timestamp = 0
      · rw [searchLoop_skip cs t tol a rest _ (Or.inr (Or.inl hts)), ih b]
        simp [List.filter_cons, hts]
      · by_cases htol : goAbsDiff a.timestamp t ≤ tol
        · rw [(searchLoop_update cs t tol a rest hcall hts htol).2 b
            (goAbsDiff b.timestamp t)]
          by_cases hlt : goAbsDiff a.timestamp t < goAbsDiff b.timestamp t
          · rw [if_pos hlt, ih a]
            have hfil : (a :: rest).filter (fun q => q.call = cs ∧
                q.timestamp ≠ 0 ∧ goAbsDiff q.timestamp t ≤ tol)
                = a :: rest.filter (fun q => q.call = cs ∧ q.timestamp ≠ 0 ∧
                  goAbsDiff q.timestamp t ≤ tol) := by
              simp [List.filter_cons, hcall, hts, htol]
            rw [hfil, firstMinBy_cons_lt hlt]
          · rw [if_neg hlt, ih b]
            have hfil : (a :: rest).filter (fun q => q.call = cs ∧
                q.timestamp ≠ 0 ∧ goAbsDiff q.timestamp t ≤ tol)
                = a :: rest.filter (fun q => q.call = cs ∧ q.timestamp ≠ 0 ∧
                  goAbsDiff q.timestamp t ≤ tol) := by
              simp [List.filter_cons, hcall, hts, htol]
            rw [hfil, firstMinBy_cons_ge (by omega)]
        · rw [searchLoop_skip cs t tol a rest _ (Or.inr (Or.inr htol)), ih b]
          simp [List.filter_cons, htol]
    · rw [searchLoop_skip cs t tol a rest _ (Or.inl hcall), ih b]
      simp [List.filter_cons, hcall]

theorem searchLoop_none (cs : List Char) (t tol : Int) :
    ∀ l : List QSO,
      searchLoop cs t tol l none
        = (firstMinBy (fun q => goAbsDiff q.timestamp t)
            (l.filter (fun q => q.call = cs ∧ q.timestamp ≠ 0 ∧
              goAbsDiff q.timestamp t ≤ tol))).map
            (fun q => (q, goAbsDiff q.timestamp t)) := by
  intro l
  induction l with
  | nil => rfl
  | cons a rest ih =>
    by_cases hcall : a.call = cs
    · by_cases hts : a.timestamp = 0
      · rw [searchLoop_skip cs t tol a rest _ (Or.inr (Or.inl hts)), ih]
        simp [List.filter_cons, hts]
      · by_cases htol : goAbsDiff a.timestamp t ≤ tol
        · rw [(searchLoop_update cs t tol a rest hcall hts htol).1,
            searchLoop_some cs t tol rest a]
          simp [List.filter_cons, hcall, hts, htol]
        · rw [searchLoop_skip cs t tol a rest _ (Or.inr (Or.inr htol)), ih]
          simp [List.filter_cons, htol]
    · rw [searchLoop_skip cs t tol a rest _ (Or.inl hcall), ih]
      simp [List.filter_cons, hcall]

theorem wrap64_eq_self {x : Int} (h1 : -(2 ^ 63) ≤ x) (h2 : x ≤ 2 ^ 63 - 1) :
    wrap64 x = x := by
  unfold wrap64
  omega

theorem goSub_exact {x t : Int}
    (h : |x - t| * 1000000000 ≤ maxDuration) :
    goSub x t = (x - t) * 1000000000 := by
  unfold goSub
  unfold maxDuration at h
  rcases le_or_lt 0 (x - t) with hs | hs
  · rw [abs_of_nonneg hs] at h
    rw [if_pos (by unfold minDuration maxDuration; omega)]
  · rw [abs_of_neg hs] at h
    rw [if_pos (by unfold minDuration maxDuration; omega)]

theorem goAbsDiff_exact {x t : Int}
    (h : |x - t| * 1000000000 ≤ maxDuration) :
    goAbsDiff x t = |x - t| * 1000000000 := by
  unfold goAbsDiff
  rw [goSub_exact h]
  unfold maxDuration at h
  rcases le_or_lt 0 (x - t) with hs | hs
  · rw [if_neg (by omega), abs_of_nonneg hs]
  · rw [abs_of_neg hs] at h ⊢
    rw [if_pos (by omega), ← neg_mul,
      wrap64_eq_self (by omega) (by omega)]

theorem goTolerance_exact {tolMin : Int} (h1 : 0 ≤ tolMin)
    (h2 : tolMin * 60000000000 ≤ maxDuration) :
    goTolerance tolMin = tolMin * 60000000000 := by
  unfold goTolerance
  unfold maxDuration at h2
  have hinner : wrap64 tolMin = tolMin := wrap64_eq_self (by omega) (by omega)
  rw [hinner, wrap64_eq_self (by omega) (by omega)]

theorem firstMinBy_scale (g1 g2 : QSO → Int) (k : Int) (hk : 0 < k) :
    ∀ l : List QSO, (∀ x ∈ l, g1 x = g2 x * k) →
      firstMinBy g1 l = firstMinBy g2 l := by
  intro l
  induction l with
  | nil => intro _; rfl
  | cons a l2 ih =>
    intro hall
    have h2 := ih (fun x hx => hall x (by simp [hx]))
    cases hl : firstMinBy g2 l2 with
    | none =>
      rw [firstMinBy_cons_none (by rw [h2, hl]) a, firstMinBy_cons_none hl a]
    | some c =>
      have hc1 : firstMinBy g1 l2 = some c := by rw [h2, hl]
      rw [firstMinBy_cons_some hc1 a, firstMinBy_cons_some hl a]
      have hcmem : c ∈ l2 := firstMinBy_mem hl
      have ha := hall a (by simp)
      have hc := hall c (by simp [hcmem])
      by_cases hle : g2 a ≤ g2 c
      · rw [if_pos hle,
          if_pos (by rw [ha, hc]; exact mul_le_mul_of_nonneg_right hle hk.le)]
      · rw [if_neg hle, if_neg (by
          rw [ha, hc]
          intro hcon
          exact hle (le_of_mul_le_mul_right hcon hk))]

/-- C2, counterexample: a same-call record nearly 317 years away from the
search time is returned for a 10-minute tolerance.  Go's `Time.Sub`
saturates at `minDuration` and the int64 negation `timeDiff = -timeDiff`
wraps `minDuration` to itself, a negative value, which passes
`timeDiff <= tolerance` — refuting "returns none when no such record is
within tolerance" (the search time is an arbitrary int64 Unix timestamp
taken from the URL in `web.go`). -/
theorem c2_counterexample :
    searchQSO [{ call := "W1AW".toList, timestamp := 1 }] "W1AW".toList
        10000000000 10
      = [{ call := "W1AW".toList, timestamp := 1 }] ∧
    ¬(|(({ call := "W1AW".toList, timestamp := 1 : QSO })).timestamp
        - 10000000000| ≤ 10 * 60) :=
  ⟨by decide, by decide⟩

/-- C2, amended: `SearchQSO` returns at most one record — the first record
(in collection order, so ties go to the earliest) attaining the minimal
*code* time distance — Go's saturating `Time.Sub` followed by wrapping
int64 negation (`goAbsDiff`) — among records whose call equals the
trimmed, upper-cased query and whose timestamp is non-zero, with that
distance at most the code's `Duration` tolerance (inclusive); none is
returned when no record passes, and a zero-timestamp record is never
returned.  Whenever no `Duration` overflow occurs — the tolerance is
non-negative and below ~292 years, and every record's true distance from
the target is below ~292 years — the code distance is the true absolute
difference and the original characterization holds: the first minimiser of
`|timestamp - t|` within `toleranceMinutes` (inclusive) in minutes.
Records farther than ~292 years get the saturated-and-wrapped distance
`minDuration < 0` and are spuriously within any tolerance, hence the
hypotheses. -/
theorem c2_search (qsos : List QSO) (callSign : List Char) (t tolMin : Int) :
    searchQSO qsos callSign t tolMin
      = (firstMinBy (fun q => goAbsDiff q.timestamp t)
          (searchMatches qsos callSign t tolMin)).toList ∧
    (searchQSO qsos callSign t tolMin).length ≤ 1 ∧
    (∀ q ∈ searchQSO qsos callSign t tolMin,
      q ∈ searchMatches qsos callSign t tolMin ∧ q.timestamp ≠ 0 ∧
      ∀ r ∈ searchMatches qsos callSign t tolMin,
        goAbsDiff q.timestamp t ≤ goAbsDiff r.timestamp t) ∧
    (searchMatches qsos callSign t tolMin = [] →
      searchQSO qsos callSign t tolMin = []) ∧
    (0 ≤ tolMin → tolMin * 60000000000 ≤ maxDuration →
      (∀ q ∈ qsos, q.call = (trimSpace callSign).map asciiUpper →
        q.timestamp ≠ 0 → |q.timestamp - t| * 1000000000 ≤ maxDuration) →
      searchQSO qsos callSign t tolMin
        = (firstMinBy (fun q => |q.timestamp - t|)
            (qsos.filter (fun q =>
              q.call = (trimSpace callSign).map asciiUpper ∧
              q.timestamp ≠ 0 ∧ |q.timestamp - t| ≤ tolMin * 60))).toList) := by
  have hmain : searchQSO qsos callSign t tolMin
      = (firstMinBy (fun q => goAbsDiff q.timestamp t)
          (searchMatches qsos callSign t tolMin)).toList := by
    simp only [searchQSO]
    rw [searchLoop_none ((trimSpace callSign).map asciiUpper) t
        (wrap64 (wrap64 tolMin * 60000000000)) qsos,
      show searchMatches qsos callSign t tolMin
        = qsos.filter (fun q => q.call = (trimSpace callSign).map asciiUpper ∧
          q.timestamp ≠ 0 ∧
          goAbsDiff q.timestamp t ≤ wrap64 (wrap64 tolMin * 60000000000)) from rfl]
    cases hfm : firstMinBy (fun q => goAbsDiff q.timestamp t)
        (qsos.filter (fun q => q.call = (trimSpace callSign).map asciiUpper ∧
          q.timestamp ≠ 0 ∧
          goAbsDiff q.timestamp t ≤ wrap64 (wrap64 tolMin * 60000000000))) with
    | none => rfl
    | some q => rfl
  refine ⟨hmain, ?_, ?_, ?_, ?_⟩
  · rw [hmain]
    cases firstMinBy (fun q => goAbsDiff q.timestamp t)
        (searchMatches qsos callSign t tolMin) <;> simp
  · intro q hq
    rw [hmain] at hq
    cases hfm : firstMinBy (fun q => goAbsDiff q.timestamp t)
        (searchMatches qsos callSign t tolMin) with
    | none => rw [hfm] at hq; simp at hq
    | some b =>
      rw [hfm] at hq
      simp at hq
      subst hq
      have hmem := firstMinBy_mem hfm
      have hts : q.timestamp ≠ 0 := by
        have hp := (List.mem_filter.mp hmem).2
        simp only [Bool.and_eq_true, decide_eq_true_eq] at hp
        exact hp.2.1
      exact ⟨hmem, hts, firstMinBy_min hfm⟩
  · intro hms
    rw [hmain, hms]
    rfl
  · intro htm1 htm2 hrange
    have htolr : goTolerance tolMin = tolMin * 60000000000 :=
      goTolerance_exact htm1 htm2
    have hms : searchMatches qsos callSign t tolMin
        = qsos.filter (fun q =>
            q.call = (trimSpace callSign).map asciiUpper ∧
            q.timestamp ≠ 0 ∧ |q.timestamp - t| ≤ tolMin * 60) := by
      unfold searchMatches
      apply List.filter_congr
      intro x hx
      by_cases hc : x.call = (trimSpace callSign).map asciiUpper
      · by_cases hz : x.timestamp = 0
        · simp [hz]
        · have hgd := goAbsDiff_exact (hrange x hx hc hz)
          simp only [decide_eq_decide]
          constructor
          · rintro ⟨hc2, hz2, hd⟩
            refine ⟨hc2, hz2, ?_⟩
            rw [hgd, htolr] at hd
            unfold maxDuration at htm2
            omega
          · rintro ⟨hc2, hz2, hd⟩
            refine ⟨hc2, hz2, ?_⟩
            rw [hgd, htolr]
            unfold maxDuration at htm2
            omega
      · simp [hc]
    have hscale : firstMinBy (fun q => goAbsDiff q.timestamp t)
          (searchMatches qsos callSign t tolMin)
        = firstMinBy (fun q => |q.timestamp - t|)
          (searchMatches qsos callSign t tolMin) := by
      apply firstMinBy_scale _ _ 1000000000 (by omega)
      intro x hxm
      have hfil := List.mem_filter.mp hxm
      have hp := hfil.2
      simp only [Bool.and_eq_true, decide_eq_true_eq] at hp
      exact goAbsDiff_exact (hrange x hfil.1 hp.1 hp.2.1)
    rw [hmain, hscale, hms]

/-- Witness for C2 in the overflow-free regime: the single in-tolerance
record at 60 seconds from the target with a 10-minute tolerance. -/
theorem c2_search_witness :
    searchQSO [{ call := "W1AW".toList, timestamp := 100 }] " w1aw ".toList
        160 10
      = (firstMinBy (fun q => |q.timestamp - 160|)
          ([{ call := "W1AW".toList, timestamp := 100 }].filter (fun q =>
            q.call = (trimSpace " w1aw ".toList).map asciiUpper ∧
            q.timestamp ≠ 0 ∧ |q.timestamp - 160| ≤ 10 * 60))).toList :=
  (c2_search [{ call := "W1AW".toList, timestamp := 100 }] " w1aw ".toList
      160 10).2.2.2.2 (by decide) (by decide) (by decide)

/-! ## C1 -/

/-- Specification-side result of a parse pass: the records built from each
`<eor>`-delimited chunk (after header stripping and trimming), keeping, in
original order, exactly those whose `call` and `qsoDate` are non-empty
after field mapping. -/
def specValidRecords (content : List Char) : List QSO :=
  ((splitEOR (stripHeader content)).map (fun r => recordQSO (trimSpace r))).filter
    (fun q => q.call ≠ [] ∧ q.qsoDate ≠ [])

theorem parseChunks_filter :
    ∀ (chunks : List (List Char)) (st : List QSO),
      parseChunks st chunks
        = st ++ (chunks.map (fun r => recordQSO (trimSpace r))).filter
            (fun q => q.call ≠ [] ∧ q.qsoDate ≠ []) := by
  intro chunks
  induction chunks with
  | nil => intro st; simp [parseChunks]
  | cons c rest ih =>
    intro st
    by_cases hemp : trimSpace c = []
    · have hcall : (recordQSO ([] : List Char)).call = [] := rfl
      simp only [parseChunks, hemp, if_pos, List.map_cons, List.filter_cons]
      rw [ih st]
      simp [hcall]
    · simp only [parseChunks, hemp, if_neg, if_false]
      cases hrec : parseRecord (trimSpace c) with
      | error e =>
        have hbad : ¬((recordQSO (trimSpace c)).call ≠ [] ∧
            (recordQSO (trimSpace c)).qsoDate ≠ []) := by
          intro hcon
          unfold parseRecord validateQSO at hrec
          rw [if_neg (by tauto)] at hrec
          simp at hrec
        rw [ih st]
        simp only [List.map_cons, List.filter_cons]
        simp [hbad]
      | ok q =>
        have hq : q = recordQSO (trimSpace c) ∧
            ((recordQSO (trimSpace c)).call ≠ [] ∧
              (recordQSO (trimSpace c)).qsoDate ≠ []) := by
          unfold parseRecord validateQSO at hrec
          split at hrec
          · simp at hrec
          · next hcond =>
            push_neg at hcond
            simp at hrec
            exact ⟨hrec.symm, hcond⟩
        dsimp only
        rw [ih (st ++ [q])]
        simp only [List.map_cons, List.filter_cons]
        rw [hq.1, if_pos (by simp [hq.2.1, hq.2.2])]
        simp

/-- C1: the parse entry point always succeeds on read content, and the
resulting collection is exactly the records whose `call` and `qsoDate` are
non-empty after field mapping, in original relative order (invalid records
are dropped whole); an empty document, or a document that is all header up
to its terminating `<EOH>`, yields an empty collection. -/
theorem c1_parse_filter :
    (∀ (st : List QSO) (content : List Char),
      parseFile st (some content) = .ok (parseContent st content)) ∧
    (∀ content : List Char, parseContent [] content = specValidRecords content) ∧
    parseContent [] [] = [] ∧
    (∀ hdr : List Char,
      findCI "<eoh>".toList (hdr ++ "<EOH>".toList) = some hdr.length →
      parseContent [] (hdr ++ "<EOH>".toList) = []) := by
  refine ⟨fun _ _ => rfl, ?_, rfl, ?_⟩
  · intro content
    unfold parseContent specValidRecords
    rw [parseChunks_filter]
    rfl
  · intro hdr hfind
    unfold parseContent stripHeader
    rw [hfind]
    dsimp only
    rw [List.drop_eq_nil_of_le (by simp)]
    rfl

/-- Witness for C1: a header-only document whose `<EOH>` is its first
case-insensitive occurrence parses to the empty collection. -/
theorem c1_parse_filter_witness :
    findCI "<eoh>".toList ("<adif_ver:5>3.1.4 generated".toList ++ "<EOH>".toList)
      = some "<adif_ver:5>3.1.4 generated".toList.length ∧
    parseContent [] ("<adif_ver:5>3.1.4 generated".toList ++ "<EOH>".toList) = [] :=
  ⟨by decide, c1_parse_filter.2.2.2 "<adif_ver:5>3.1.4 generated".toList (by decide)⟩

/-! ## C4 -/

theorem char_toNat_inj {a b : Char} (h : a.toNat = b.toNat) : a = b := by
  have h2 := Char.ofNat_toNat a
  rw [h] at h2
  rw [← h2, Char.ofNat_toNat]

theorem strLt_irrefl : ∀ l : List Char, strLt l l = false := by
  intro l
  induction l with
  | nil => rfl
  | cons a as ih => simp [strLt, ih]

theorem strLt_trans : ∀ x y z : List Char,
    strLt x y = true → strLt y z = true → strLt x z = true := by
  intro x
  induction x with
  | nil =>
    intro y z h1 h2
    cases y with
    | nil => simp [strLt] at h1
    | cons b bs =>
      cases z with
      | nil => simp [strLt] at h2
      | cons c cs => rfl
  | cons a as ih =>
    intro y z h1 h2
    cases y with
    | nil => simp [strLt] at h1
    | cons b bs =>
      cases z with
      | nil => simp [strLt] at h2
      | cons c cs =>
        simp only [strLt] at h1 h2 ⊢
        by_cases hab : a = b
        · rw [if_pos hab] at h1
          by_cases hbc : b = c
          · rw [if_pos hbc] at h2
            rw [if_pos (hab.trans hbc)]
            exact ih bs cs h1 h2
          · rw [if_neg hbc] at h2
            rw [if_neg (fun hac => hbc (hab.symm.trans hac).symm.symm), hab]
            exact h2
        · rw [if_neg hab] at h1
          simp only [decide_eq_true_eq] at h1
          by_cases hbc : b = c
          · rw [if_neg (fun hac => hab (hac.trans hbc.symm)), ← hbc]
            simpa using h1
          · rw [if_neg hbc] at h2
            simp only [decide_eq_true_eq] at h2
            by_cases hac : a = c
            · subst hac
              omega
            · rw [if_neg hac]
              simp only [decide_eq_true_eq]
              omega

theorem strLt_negtrans : ∀ x y z : List Char,
    strLt x y = false → strLt y z = false → strLt x z = false := by
  intro x
  induction x with
  | nil =>
    intro y z h1 h2
    cases z with
    | nil => rfl
    | cons c cs =>
      cases y with
      | nil => simp [strLt] at h2
      | cons b bs => simp [strLt] at h1
  | cons a as ih =>
    intro y z h1 h2
    cases z with
    | nil => cases as <;> rfl
    | cons c cs =>
      cases y with
      | nil => simp [strLt] at h2
      | cons b bs =>
        simp only [strLt] at h1 h2 ⊢
        by_cases hab : a = b
        · rw [if_pos hab] at h1
          by_cases hbc : b = c
          · rw [if_pos hbc] at h2
            rw [if_pos (hab.trans hbc)]
            exact ih bs cs h1 h2
          · rw [if_neg hbc] at h2
            simp only [decide_eq_false_iff_not, not_lt] at h2
            rw [if_neg (fun hac => hbc (hab.symm.trans hac)), hab]
            simp only [decide_eq_false_iff_not, not_lt]
            exact h2
        · rw [if_neg hab] at h1
          simp only [decide_eq_false_iff_not, not_lt] at h1
          by_cases hbc : b = c
          · rw [if_neg (fun hac => hab (hac.trans hbc.symm)), ← hbc]
            simp only [decide_eq_false_iff_not, not_lt]
            exact h1
          · rw [if_neg hbc] at h2
            simp only [decide_eq_false_iff_not, not_lt] at h2
            by_cases hac : a = c
            · subst hac
              exact absurd (char_toNat_inj (by omega)) hab
            · rw [if_neg hac]
              simp only [decide_eq_false_iff_not, not_lt]
              omega

theorem callSwap_irrefl (a : QSO) : callSwap a a = false :=
  strLt_irrefl a.call

theorem callSwap_trans (a b c : QSO) (h1 : callSwap a b = true)
    (h2 : callSwap b c = true) : callSwap a c = true :=
  strLt_trans c.call b.call a.call h2 h1

theorem callSwap_negtrans (a b c : QSO) (h1 : callSwap a b = false)
    (h2 : callSwap b c = false) : callSwap a c = false :=
  strLt_negtrans c.call b.call a.call h2 h1

/-- Specification-side retained record for one call sign: the first
qualifying record that has a non-empty `name`, or, if none has a name, the
first qualifying record. -/
def pickHOF (l : List QSO) : Option QSO :=
  match l.find? (fun q => q.name ≠ []) with
  | some q => some q
  | none => l.head?

/-- The records with `qslRcvd = Y` and the given call sign, in collection
order. -/
def qualAt (c : List Char) (l : List QSO) : List QSO :=
  l.filter (fun q => q.qslRcvd = "Y".toList ∧ q.call = c)

theorem pickHOF_mem {l : List QSO} {v : QSO} (h : pickHOF l = some v) :
    v ∈ l := by
  unfold pickHOF at h
  cases hf : l.find? (fun q => q.name ≠ []) with
  | some q =>
    rw [hf] at h
    simp at h
    subst h
    exact List.mem_of_find?_eq_some hf
  | none =>
    rw [hf] at h
    simp only at h
    cases l with
    | nil => simp at h
    | cons x xs =>
      simp at h
      simp [h]

theorem pickHOF_singleton (q : QSO) : pickHOF [q] = some q := by
  unfold pickHOF
  by_cases hn : q.name = [] <;> simp [List.find?, hn]

theorem pickHOF_unnamed {l : List QSO} {v : QSO} (h : pickHOF l = some v)
    (hn : v.name = []) : l.find? (fun q => q.name ≠ []) = none := by
  unfold pickHOF at h
  cases hf : l.find? (fun q => q.name ≠ []) with
  | some q =>
    rw [hf] at h
    simp at h
    subst h
    have := List.find?_some hf
    simp [hn] at this
  | none => rfl

theorem pickHOF_named {l : List QSO} {v : QSO} (h : pickHOF l = some v)
    (hn : v.name ≠ []) : l.find? (fun q => q.name ≠ []) = some v := by
  unfold pickHOF at h
  cases hf : l.find? (fun q => q.name ≠ []) with
  | some q =>
    rw [hf] at h
    simp at h
    rw [h]
  | none =>
    rw [hf] at h
    simp only at h
    have hv : v ∈ l := by
      cases l with
      | nil => simp at h
      | cons x xs => simp at h; simp [h]
    have := List.find?_eq_none.mp hf v hv
    simp [hn] at this

theorem pickHOF_append_named {l : List QSO} {v : QSO}
    (hv : pickHOF l = some v) (hvn : v.name = []) {q : QSO}
    (hqn : q.name ≠ []) : pickHOF (l ++ [q]) = some q := by
  unfold pickHOF
  rw [List.find?_append, pickHOF_unnamed hv hvn]
  simp [List.find?, hqn]

theorem pickHOF_append_keep_named {l : List QSO} {v : QSO}
    (hv : pickHOF l = some v) (hvn : v.name ≠ []) (q : QSO) :
    pickHOF (l ++ [q]) = some v := by
  unfold pickHOF
  rw [List.find?_append, pickHOF_named hv hvn]
  rfl

theorem pickHOF_append_keep_unnamed {l : List QSO} {v : QSO}
    (hv : pickHOF l = some v) (hvn : v.name = []) {q : QSO}
    (hqn : q.name = []) : pickHOF (l ++ [q]) = some v := by
  have hne : l ≠ [] := by
    intro h
    subst h
    simp [pickHOF] at hv
  unfold pickHOF
  rw [List.find?_append, pickHOF_unnamed hv hvn]
  have hfq : [q].find? (fun r => r.name ≠ []) = none := by
    simp [List.find?, hqn]
  rw [hfq]
  cases l with
  | nil => exact absurd rfl hne
  | cons x xs =>
    have hx : pickHOF (x :: xs) = some x := by
      unfold pickHOF
      rw [pickHOF_unnamed hv hvn]
      rfl
    rw [hx] at hv
    simpa using hv

theorem seenFind_eq_none {c : List Char} :
    ∀ {seen : List (List Char × QSO)},
      seenFind c seen = none ↔ ∀ e ∈ seen, e.1 ≠ c := by
  intro seen
  induction seen with
  | nil => exact ⟨fun _ e he => absurd he (List.not_mem_nil e), fun _ => rfl⟩
  | cons e rest ih =>
    unfold seenFind
    by_cases he : e.1 = c
    · constructor
      · intro h
        rw [if_pos he] at h
        simp at h
      · intro h
        exact absurd he (h e (List.mem_cons_self e rest))
    · rw [if_neg he]
      constructor
      · intro h f hf
        rcases List.mem_cons.mp hf with rfl | hf2
        · exact he
        · exact ih.mp h f hf2
      · intro h
        exact ih.mpr (fun f hf => h f (List.mem_cons_of_mem e hf))

theorem seenFind_eq_some {c : List Char} {v : QSO} :
    ∀ {seen : List (List Char × QSO)},
      seenFind c seen = some v → (c, v) ∈ seen := by
  intro seen
  induction seen with
  | nil => intro h; simp [seenFind] at h
  | cons e rest ih =>
    intro h
    unfold seenFind at h
    by_cases he : e.1 = c
    · rw [if_pos he] at h
      simp at h
      have hev : (c, v) = e := by
        obtain ⟨e1, e2⟩ := e
        simp at he h ⊢
        exact ⟨he.symm, h.symm⟩
      rw [hev]
      exact List.mem_cons_self e rest
    · rw [if_neg he] at h
      exact List.mem_cons_of_mem _ (ih h)

theorem seenFind_nodup_mem {k : List Char} {v w : QSO}
    {seen : List (List Char × QSO)} (hnd : (seen.map Prod.fst).Nodup)
    (hmem : (k, v) ∈ seen) (hfind : seenFind k seen = some w) : v = w := by
  induction seen with
  | nil => simp at hmem
  | cons e rest ih =>
    unfold seenFind at hfind
    rcases List.mem_cons.mp hmem with heq | hmem2
    · rw [← heq] at hfind
      simp at hfind
      exact hfind
    · by_cases he : e.1 = k
      · exfalso
        have : k ∈ rest.map Prod.fst :=
          List.mem_map.mpr ⟨(k, v), hmem2, rfl⟩
        rw [← he] at this
        exact (List.nodup_cons.mp hnd).1 this
      · rw [if_neg he] at hfind
        exact ih (List.nodup_cons.mp hnd).2 hmem2 hfind

theorem qualAt_append_notqual {q : QSO} (hq : ¬q.qslRcvd = "Y".toList)
    (c : List Char) (l : List QSO) : qualAt c (l ++ [q]) = qualAt c l := by
  unfold qualAt
  rw [List.filter_append]
  have h2 : ¬q.qslRcvd = ['Y'] := by simpa using hq
  simp [List.filter_cons, h2]

theorem qualAt_append_other {q : QSO} {c : List Char} (hc : ¬q.call = c)
    (l : List QSO) : qualAt c (l ++ [q]) = qualAt c l := by
  unfold qualAt
  rw [List.filter_append]
  simp [List.filter_cons, hc]

theorem qualAt_append_self {q : QSO} (hq : q.qslRcvd = "Y".toList)
    (l : List QSO) : qualAt q.call (l ++ [q]) = qualAt q.call l ++ [q] := by
  unfold qualAt
  rw [List.filter_append]
  have h2 : q.qslRcvd = ['Y'] := by simpa using hq
  simp [List.filter_cons, h2]

/-- Invariant of the `seen` map of `GetPaperQSLHallOfFame` after processing
a prefix of the collection: keys are distinct; a key is present exactly
when the prefix holds a qualifying record for it; and each entry holds the
record `pickHOF` selects from the qualifying records of its key. -/
def HOFInv (processed : List QSO) (seen : List (List Char × QSO)) : Prop :=
  (seen.map Prod.fst).Nodup ∧
  (∀ c : List Char, c ∈ seen.map Prod.fst ↔ qualAt c processed ≠ []) ∧
  (∀ e ∈ seen, e.2.call = e.1 ∧ pickHOF (qualAt e.1 processed) = some e.2)

theorem hofInv_step_notqual {processed : List QSO}
    {seen : List (List Char × QSO)} {q : QSO}
    (hq : ¬q.qslRcvd = "Y".toList) (h : HOFInv processed seen) :
    HOFInv (processed ++ [q]) seen := by
  obtain ⟨h1, h2, h3⟩ := h
  refine ⟨h1, ?_, ?_⟩
  · intro c
    rw [qualAt_append_notqual hq]
    exact h2 c
  · intro e he
    rw [qualAt_append_notqual hq]
    exact h3 e he

theorem hofInv_step_qual {processed : List QSO}
    {seen : List (List Char × QSO)} {q : QSO}
    (hq : q.qslRcvd = "Y".toList) (h : HOFInv processed seen) :
    HOFInv (processed ++ [q]) (hofUpdate seen q) := by
  obtain ⟨h1, h2, h3⟩ := h
  unfold hofUpdate
  cases hfind : seenFind q.call seen with
  | none =>
    have hkeys : ∀ e ∈ seen, e.1 ≠ q.call := seenFind_eq_none.mp hfind
    have hnotin : q.call ∉ seen.map Prod.fst := by
      intro hin
      obtain ⟨e, he, hfst⟩ := List.mem_map.mp hin
      exact hkeys e he hfst
    refine ⟨?_, ?_, ?_⟩
    · rw [List.map_append, List.nodup_append]
      refine ⟨h1, List.nodup_singleton _, ?_⟩
      intro x hx hx2
      simp at hx2
      subst hx2
      exact hnotin hx
    · intro c
      rw [List.map_append]
      by_cases hc : c = q.call
      · subst hc
        constructor
        · intro _
          rw [qualAt_append_self hq]
          simp
        · intro _
          simp
      · rw [qualAt_append_other (fun hcc => hc hcc.symm)]
        constructor
        · intro hin
          rcases List.mem_append.mp hin with hin1 | hin2
          · exact (h2 c).mp hin1
          · simp at hin2
            exact absurd hin2 hc
        · intro hne
          exact List.mem_append_left _ ((h2 c).mpr hne)
    · intro e he
      rcases List.mem_append.mp he with he1 | he2
      · have hne : e.1 ≠ q.call := hkeys e he1
        rw [qualAt_append_other (fun hcc => hne hcc.symm)]
        exact h3 e he1
      · simp only [List.mem_singleton] at he2
        subst he2
        refine ⟨rfl, ?_⟩
        have hempty : qualAt q.call processed = [] := by
          by_contra hne
          exact hnotin ((h2 q.call).mpr hne)
        show pickHOF (qualAt q.call (processed ++ [q])) = some q
        rw [qualAt_append_self hq, hempty]
        simpa using pickHOF_singleton q
  | some existing =>
    have hmem : (q.call, existing) ∈ seen := seenFind_eq_some hfind
    obtain ⟨hecall, hepick⟩ := h3 (q.call, existing) hmem
    dsimp only
    by_cases hrepl : q.name ≠ [] ∧ existing.name = []
    · rw [if_pos hrepl]
      have hkeys_eq : (seen.map (fun e => if e.1 = q.call then (e.1, q) else e)).map
          Prod.fst = seen.map Prod.fst := by
        rw [List.map_map]
        apply List.map_congr_left
        intro e _
        by_cases hc : e.1 = q.call <;> simp [hc]
      refine ⟨by rw [hkeys_eq]; exact h1, ?_, ?_⟩
      · intro c
        rw [hkeys_eq]
        by_cases hc : c = q.call
        · subst hc
          rw [qualAt_append_self hq]
          constructor
          · intro _
            simp
          · intro _
            exact List.mem_map.mpr ⟨(q.call, existing), hmem, rfl⟩
        · rw [qualAt_append_other (fun hcc => hc hcc.symm)]
          exact h2 c
      · intro e2 he2
        obtain ⟨e, he, rfl⟩ := List.mem_map.mp he2
        by_cases hc : e.1 = q.call
        · have hme : (q.call, e.2) ∈ seen := by
            rw [← hc]
            exact he
          have hev : e.2 = existing := seenFind_nodup_mem h1 hme hfind
          rw [if_pos hc]
          refine ⟨by rw [hc], ?_⟩
          show pickHOF (qualAt e.1 (processed ++ [q])) = some q
          rw [hc, qualAt_append_self hq]
          exact pickHOF_append_named hepick (hev ▸ hrepl.2) hrepl.1
        · rw [if_neg hc]
          rw [qualAt_append_other (fun hcc => hc hcc.symm)]
          exact h3 e he
    · rw [if_neg hrepl]
      refine ⟨h1, ?_, ?_⟩
      · intro c
        by_cases hc : c = q.call
        · subst hc
          rw [qualAt_append_self hq]
          constructor
          · intro _
            simp
          · intro _
            exact List.mem_map.mpr ⟨(q.call, existing), hmem, rfl⟩
        · rw [qualAt_append_other (fun hcc => hc hcc.symm)]
          exact h2 c
      · intro e he
        by_cases hc : e.1 = q.call
        · have hme : (q.call, e.2) ∈ seen := by
            rw [← hc]
            exact he
          have hev : e.2 = existing := seenFind_nodup_mem h1 hme hfind
          refine ⟨(h3 e he).1, ?_⟩
          rw [hc, qualAt_append_self hq, hev]
          by_cases hex : existing.name = []
          · have hqn : q.name = [] := by
              by_contra hqn
              exact hrepl ⟨hqn, hex⟩
            exact pickHOF_append_keep_unnamed (hev ▸ hepick) hex hqn
          · exact pickHOF_append_keep_named (hev ▸ hepick) hex q
        · rw [qualAt_append_other (fun hcc => hc hcc.symm)]
          exact h3 e he

theorem hofLoop_inv : ∀ (rest processed : List QSO)
    (seen : List (List Char × QSO)), HOFInv processed seen →
    HOFInv (processed ++ rest) (hofLoop rest seen) := by
  intro rest
  induction rest with
  | nil =>
    intro processed seen h
    simpa [hofLoop] using h
  | cons q rest2 ih =>
    intro processed seen h
    have hassoc : processed ++ q :: rest2 = (processed ++ [q]) ++ rest2 := by
      simp
    rw [hassoc]
    unfold hofLoop
    by_cases hq : q.qslRcvd = "Y".toList
    · rw [if_pos hq]
      exact ih (processed ++ [q]) _ (hofInv_step_qual hq h)
    · rw [if_neg hq]
      exact ih (processed ++ [q]) _ (hofInv_step_notqual hq h)

theorem hofInv_base : HOFInv [] [] := by
  refine ⟨List.nodup_nil, ?_, ?_⟩
  · intro c
    simp [qualAt]
  · intro e he
    simp at he

/-- C4: `GetPaperQSLHallOfFame` returns, for each distinct call sign having
at least one record with `qslRcvd = Y`, exactly one such record — the first
qualifying record with a non-empty `name` when one exists, otherwise the
first-seen qualifying record (`pickHOF`); the result is sorted by call sign
ascending (Go string order), call signs are pairwise distinct, and records
whose `qslRcvd` is not `Y` never appear. -/
theorem c4_hall_of_fame (qsos : List QSO) :
    (∀ v ∈ hallOfFame qsos, v.qslRcvd = "Y".toList) ∧
    (∀ v ∈ hallOfFame qsos, pickHOF (qualAt v.call qsos) = some v) ∧
    ((hallOfFame qsos).map (fun q => q.call)).Nodup ∧
    (hallOfFame qsos).Pairwise (fun a b => strLt b.call a.call = false) ∧
    (∀ c : List Char,
      (∃ q ∈ qsos, q.qslRcvd = "Y".toList ∧ q.call = c) ↔
      ∃ v ∈ hallOfFame qsos, v.call = c) := by
  have hinv : HOFInv qsos (hofLoop qsos []) := by
    have h := hofLoop_inv qsos [] [] hofInv_base
    simpa using h
  obtain ⟨h1, h2, h3⟩ := hinv
  have hperm : (hallOfFame qsos).Perm ((hofLoop qsos []).map (fun e => e.2)) :=
    bubbleSortBy_perm _
  have hval : ∀ v ∈ hallOfFame qsos, ∃ e ∈ hofLoop qsos [], e.2 = v := by
    intro v hv
    obtain ⟨e, he, hev⟩ := List.mem_map.mp (hperm.subset hv)
    exact ⟨e, he, hev⟩
  have hpick : ∀ v ∈ hallOfFame qsos, pickHOF (qualAt v.call qsos) = some v := by
    intro v hv
    obtain ⟨e, he, hev⟩ := hval v hv
    obtain ⟨hc, hp⟩ := h3 e he
    rw [← hev, hc]
    exact hp
  have hqsl : ∀ v ∈ hallOfFame qsos, v.qslRcvd = "Y".toList := by
    intro v hv
    have hmem := pickHOF_mem (hpick v hv)
    have hpred := (List.mem_filter.mp hmem).2
    simp only [Bool.and_eq_true, decide_eq_true_eq] at hpred
    simpa using hpred.1
  refine ⟨hqsl, hpick, ?_, ?_, ?_⟩
  · have hkeys : ((hofLoop qsos []).map (fun e => e.2)).map (fun q => q.call)
        = (hofLoop qsos []).map Prod.fst := by
      rw [List.map_map]
      apply List.map_congr_left
      intro e he
      exact (h3 e he).1
    have hp2 := hperm.map (fun q => q.call)
    rw [hkeys] at hp2
    exact hp2.nodup_iff.mpr h1
  · exact bubbleSortBy_sorted callSwap_irrefl callSwap_trans callSwap_negtrans _
  · intro c
    constructor
    · rintro ⟨q, hq1, hq2, hq3⟩
      have hne : qualAt c qsos ≠ [] := by
        intro hnil
        have hm : q ∈ qualAt c qsos :=
          List.mem_filter.mpr ⟨hq1, by simp [hq2, hq3]⟩
        rw [hnil] at hm
        simp at hm
      obtain ⟨e, he, hfst⟩ := List.mem_map.mp ((h2 c).mpr hne)
      refine ⟨e.2, ?_, by rw [(h3 e he).1, hfst]⟩
      exact hperm.symm.subset (List.mem_map.mpr ⟨e, he, rfl⟩)
    · rintro ⟨v, hv, hvc⟩
      have hmem := pickHOF_mem (hpick v hv)
      have hfil := List.mem_filter.mp hmem
      refine ⟨v, hfil.1, hqsl v hv, hvc⟩

/-- Witness for C4 at the spec's M0XYZ example: of two confirmed records
for the same call sign, the named one is retained. -/
theorem c4_hall_of_fame_witness :
    pickHOF (qualAt "M0XYZ".toList
        [{ call := "M0XYZ".toList, qslRcvd := "Y".toList, timestamp := 1 },
         { call := "M0XYZ".toList, name := "Alice".toList, qslRcvd := "Y".toList, timestamp := 2 }])
      = some { call := "M0XYZ".toList, name := "Alice".toList, qslRcvd := "Y".toList, timestamp := 2 } :=
  (c4_hall_of_fame
      [{ call := "M0XYZ".toList, qslRcvd := "Y".toList, timestamp := 1 },
       { call := "M0XYZ".toList, name := "Alice".toList, qslRcvd := "Y".toList, timestamp := 2 }]).2.1
    { call := "M0XYZ".toList, name := "Alice".toList, qslRcvd := "Y".toList, timestamp := 2 }
    (by decide)

end QSL
